import Mathlib

/-!
Verification of the post-build transformation pipeline of cargo-liquid
(src/cmd/build.rs) against its natural-language specification.

The development shallowly embeds the pipeline:
* a filesystem model (paths as component lists, files as byte lists),
* the parity-wasm section model and the metadata stripper
  (translated from the source function strip_custom_sections),
* crate-metadata resolution (translated from collect_crate_metadata),
* the reachability optimizer, modelled from the specification because the
  implementation lives in the external pwasm-utils crate,
* the sandboxed build scope, modelled from the specification because the
  Workspace implementation lives outside the analysed source file,
* the pipeline orchestrator (translated from execute_build, post_process_wasm,
  optimize_wasm and build_cargo_project).
-/

deriving instance DecidableEq for Except

namespace Liquid

/-! ## Filesystem model -/

/-- A filesystem path, as its list of components (PathBuf push-components). -/
abbrev FPath := List String

/-- File content, as a byte list. -/
abbrev File := List Nat

/-- A filesystem: a partial map from paths to file contents. -/
def FS : Type := FPath → Option File

/-- Writing a file: the target path now holds the new content. -/
def fsWrite (fs : FS) (p : FPath) (c : File) : FS :=
  fun q => if q = p then some c else fs q

/-- Removing a file. -/
def fsErase (fs : FS) (p : FPath) : FS :=
  fun q => if q = p then none else fs q

theorem fsWrite_self (fs : FS) (p : FPath) (c : File) : fsWrite fs p c p = some c := by
  simp [fsWrite]

theorem fsWrite_other (fs : FS) (p q : FPath) (c : File) (h : q ≠ p) :
    fsWrite fs p c q = fs q := by
  simp [fsWrite, h]

/-! ## Module sections (parity_wasm::elements::Section) and the metadata stripper -/

/-- The tagged section variants of the binary module model
(parity_wasm::elements::Section), with payloads kept abstract as byte lists. -/
inductive Sec where
  | Unparsed (id : Nat) (payload : List Nat)
  | Custom (nm : String) (payload : List Nat)
  | TypeSec (payload : List Nat)
  | ImportSec (payload : List Nat)
  | FunctionSec (payload : List Nat)
  | TableSec (payload : List Nat)
  | MemorySec (payload : List Nat)
  | GlobalSec (payload : List Nat)
  | ExportSec (payload : List Nat)
  | Start (func : Nat)
  | ElementSec (payload : List Nat)
  | Code (payload : List Nat)
  | DataSec (payload : List Nat)
  | NameSec (payload : List Nat)
  | Reloc (payload : List Nat)
deriving DecidableEq

/-- Kind test: the three metadata-only section kinds
(Custom / Name / Reloc), never consulted at execution time. -/
def isMetadataSec : Sec → Bool
  | .Custom _ _ => true
  | .NameSec _ => true
  | .Reloc _ => true
  | _ => false

/-- Translated from strip_custom_sections: retain every section that is not
Custom, Name or Reloc. -/
def strip_custom_sections (sections : List Sec) : List Sec :=
  sections.filter fun s =>
    match s with
    | .Custom _ _ => false
    | .NameSec _ => false
    | .Reloc _ => false
    | _ => true

/-! ## Crate metadata resolution (collect_crate_metadata) -/

/-- A cargo package: its id and (possibly hyphenated) name. -/
structure Package where
  id : Nat
  name : String
deriving DecidableEq

/-- The resolved cargo metadata consumed by collect_crate_metadata. -/
structure CargoMetadata where
  packages : List Package
  target_directory : FPath
deriving DecidableEq

/-- The crate metadata record built by collect_crate_metadata. -/
structure CrateMetadata where
  manifest_path : FPath
  cargo_meta : CargoMetadata
  package_name : String
  root_package : Package
  original_wasm : FPath
  dest_wasm : FPath
deriving DecidableEq

/-- Outcome of a computation that may purposely panic (Rust expect) in
addition to returning an error result. -/
inductive Outcome (α : Type) where
  | ok (a : α)
  | error (e : String)
  | panicked (msg : String)
deriving DecidableEq

/-- Package-name normalization: replace("-", "_") on the package name. -/
def normalize (s : String) : String :=
  ⟨s.data.map fun c => if c = '-' then '_' else c⟩

/-- The characters strictly before the last '.' of a component,
or none if the component has no '.'. -/
def preLastDot : List Char → Option (List Char)
  | [] => none
  | c :: rest =>
    match preLastDot rest with
    | some p => some (c :: p)
    | none => if c = '.' then some [] else none

/-- Rust Path::set_extension on a single path component: replace the
extension after the last dot (a lone leading dot does not start an
extension), or append one. -/
def setExtComp (nm ext : String) : String :=
  match preLastDot nm.data with
  | none => ⟨nm.data ++ '.' :: ext.data⟩
  | some p => if p = [] then ⟨nm.data ++ '.' :: ext.data⟩ else ⟨p ++ '.' :: ext.data⟩

/-- Rust PathBuf::set_extension: rewrite the extension of the final
component; a path without components is left unchanged. -/
def setExtension (p : FPath) (ext : String) : FPath :=
  match p.reverse with
  | [] => []
  | c :: rest => rest.reverse ++ [setExtComp c ext]

/-- Translated from collect_crate_metadata: locate the root package by id
(expect-panicking when absent), normalize its name, and derive the raw and
destination artifact paths. The external get_cargo_metadata collaborator is
modelled by taking its resolved output (metadata and root package id) as
input. -/
def collect_crate_metadata (md : CargoMetadata) (root_package_id : Nat)
    (manifest_path : FPath) : Outcome CrateMetadata :=
  match md.packages.find? fun p => p.id = root_package_id with
  | none => .panicked "The package is not in the `cargo metadata` output"
  | some root_package =>
    let package_name := normalize root_package.name
    let original_wasm :=
      setExtension (md.target_directory ++ ["wasm32-unknown-unknown", "release", package_name])
        "wasm"
    let dest_wasm := setExtension (md.target_directory ++ [package_name]) "wasm"
    .ok
      { manifest_path := manifest_path
        cargo_meta := md
        package_name := package_name
        root_package := root_package
        original_wasm := original_wasm
        dest_wasm := dest_wasm }

/-! ## Reachability optimizer

Modelled from the spec: the body of pwasm_utils::optimize is an external
crate not present in this repository; the model follows section 4.2 of the
specification (entrypoint resolution, work-list closure over the symbol
reference graph, rewrite of the kept entries with compacting remap).
-/

/-- The kinds of semantic entries that participate in reachability. -/
inductive SymKind where
  | func
  | glob
  | typ
  | table
  | mem
deriving DecidableEq

/-- A node of the symbol reference graph: an index into one of the
semantic index spaces. -/
structure Sym where
  kind : SymKind
  idx : Nat
deriving DecidableEq

/-- A function body, abstracted to the semantic entries it references
(call targets, indirect-call type references, global reads, table and
memory uses). -/
structure Func where
  refs : List Sym
deriving DecidableEq

/-- An export-section entry: an exported name pointing at a function index. -/
structure ExportEntry where
  name : String
  func : Nat
deriving DecidableEq

/-- The semantic view of a module consumed by the reachability optimizer:
function bodies with their references, the sizes of the other semantic
index spaces, and the export section. -/
structure OModule where
  funcs : List Func
  nGlobals : Nat
  nTypes : Nat
  nTables : Nat
  nMems : Nat
  exports : List ExportEntry
deriving DecidableEq

/-- Errors of the reachability optimizer (spec section 4.2). -/
inductive OptError where
  | unknownEntrypoint
  | danglingReference
deriving DecidableEq

/-- Option-valued traversal of a list, failing when any element fails. -/
def mapOpt (f : α → Option β) : List α → Option (List β)
  | [] => some []
  | a :: l =>
    match f a, mapOpt f l with
    | some b, some l2 => some (b :: l2)
    | _, _ => none

/-- References recorded when popping function i from the work-list
(no function at i records nothing). -/
def refsOf (funcs : List Func) (i : Nat) : List Sym :=
  (funcs[i]?.map Func.refs).getD []

/-- The function indices among the references of function i. -/
def funcRefsOf (funcs : List Func) (i : Nat) : List Nat :=
  (refsOf funcs i).filterMap fun s =>
    match s.kind with
    | .func => some s.idx
    | _ => none

/-- One round of the work-list traversal: every function index referenced
by an already-visited function joins the visited set. -/
def reachStep (funcs : List Func) (s : Finset Nat) : Finset Nat :=
  s ∪ s.biUnion fun i => (funcRefsOf funcs i).toFinset

/-- The visited set after n rounds of traversal from the seeds. -/
def visitedN (funcs : List Func) (seeds : Finset Nat) : Nat → Finset Nat
  | 0 => seeds
  | n + 1 => reachStep funcs (visitedN funcs seeds n)

/-- An upper bound on the number of distinct indices the traversal can
ever visit. -/
def reachBound (funcs : List Func) (seeds : Finset Nat) : Nat :=
  (seeds ∪ (Finset.range funcs.length).biUnion fun i => (funcRefsOf funcs i).toFinset).card

/-- The full visited set: the traversal saturates within the bound. -/
def visitedF (funcs : List Func) (seeds : Finset Nat) : Finset Nat :=
  visitedN funcs seeds (reachBound funcs seeds + 1)

/-- Transitive reachability along the call/reference chain from the seed
function indices (the specification notion of the reachability closure). -/
inductive Reach (funcs : List Func) (seeds : List Nat) : Nat → Prop
  | seed {i : Nat} : i ∈ seeds → Reach funcs seeds i
  | step {i j : Nat} : Reach funcs seeds i → j ∈ funcRefsOf funcs i → Reach funcs seeds j

/-- Resolve one entrypoint name to the function index of the first export
carrying that name. -/
def resolveEntrypoint (m : OModule) (nm : String) : Option Nat :=
  (m.exports.find? fun e => e.name = nm).map ExportEntry.func

/-- Resolve every entrypoint name; fails when any name is absent from the
export section. -/
def resolveSeeds (m : OModule) (eps : List String) : Option (List Nat) :=
  mapOpt (resolveEntrypoint m) eps

/-- Does any visited function reference the semantic entry s? -/
def symUsed (m : OModule) (vis : Finset Nat) (s : Sym) : Bool :=
  decide (∃ i ∈ vis, s ∈ refsOf m.funcs i)

/-- The declared size of each semantic index space of a module. -/
def countOfKind (m : OModule) : SymKind → Nat
  | .func => m.funcs.length
  | .glob => m.nGlobals
  | .typ => m.nTypes
  | .table => m.nTables
  | .mem => m.nMems

/-- The kept (surviving) indices of one semantic index space, in order:
functions survive when visited by the traversal, every other entry when
some visited function references it. -/
def keptOfKind (m : OModule) (vis : Finset Nat) : SymKind → List Nat
  | .func => (List.range m.funcs.length).filter fun i => decide (i ∈ vis)
  | k => (List.range (countOfKind m k)).filter fun i => symUsed m vis ⟨k, i⟩

/-- Position of an old index in the kept list: the total, order-preserving
compacting remap of the specification. -/
def remapIn (kept : List Nat) (i : Nat) : Option Nat :=
  match kept with
  | [] => none
  | k :: rest => if k = i then some 0 else (remapIn rest i).map (· + 1)

/-- Remap one symbol reference into the compacted index spaces. -/
def remapSym (m : OModule) (vis : Finset Nat) (s : Sym) : Option Sym :=
  (remapIn (keptOfKind m vis s.kind) s.idx).map fun j => ⟨s.kind, j⟩

/-- Remap every reference of a function body. -/
def remapFunc (m : OModule) (vis : Finset Nat) (f : Func) : Option Func :=
  (mapOpt (remapSym m vis) f.refs).map Func.mk

/-- Modelled from the spec: the reachability optimizer
(pwasm_utils::optimize). Resolves the entrypoints, computes the
reachability closure, keeps exactly the closure and remaps every surviving
cross-reference; a reference that escapes the remap is a DanglingReference. -/
def optimize (m : OModule) (eps : List String) : Except OptError OModule :=
  match resolveSeeds m eps with
  | none => .error .unknownEntrypoint
  | some sd =>
    let vis := visitedF m.funcs sd.toFinset
    match mapOpt (fun i => m.funcs[i]?.bind (remapFunc m vis)) (keptOfKind m vis .func),
        mapOpt (fun e => (remapIn (keptOfKind m vis .func) e.func).map fun j => ExportEntry.mk e.name j)
          (m.exports.filter fun e => decide (e.name ∈ eps)) with
    | some funcs2, some exports2 =>
      .ok
        { funcs := funcs2
          nGlobals := (keptOfKind m vis .glob).length
          nTypes := (keptOfKind m vis .typ).length
          nTables := (keptOfKind m vis .table).length
          nMems := (keptOfKind m vis .mem).length
          exports := exports2 }
    | _, _ => .error .danglingReference

/-! ## Pipeline orchestrator (execute_build and its stages) -/

/-- The in-memory module: the semantic view consumed by the reachability
optimizer together with the section list consumed by the stripper. -/
structure PModule where
  om : OModule
  secs : List Sec
deriving DecidableEq

/-- The failure causes surfaced by the pipeline stages. -/
inductive BuildError where
  | loadingWasmFailed
  | optimizerFailed
  | invalidManifest
  | buildFailed
  | wasmOptFailed
  | ioError
deriving DecidableEq

/-- The fixed entrypoint list passed to the optimizer by post_process_wasm. -/
def entrypoints : List String := ["call", "deploy"]

/-- post_process_wasm parameterized over the entrypoint list it seeds the
optimizer with: deserialize the raw artifact, run the reachability
optimizer, strip the metadata sections, and only then serialize to the
destination path. Deserialization and serialization (parity_wasm) are
abstracted as decode/encode parameters. Returns the stage result together
with the resulting filesystem. -/
def post_process_with (decode : File → Option PModule) (encode : PModule → File)
    (eps : List String) (cm : CrateMetadata) (fs : FS) : Except BuildError Unit × FS :=
  match fs cm.original_wasm with
  | none => (.error .loadingWasmFailed, fs)
  | some bytes =>
    match decode bytes with
    | none => (.error .loadingWasmFailed, fs)
    | some pm =>
      match optimize pm.om eps with
      | .error _ => (.error .optimizerFailed, fs)
      | .ok om2 =>
        let pm2 : PModule := ⟨om2, strip_custom_sections pm.secs⟩
        (.ok (), fsWrite fs cm.dest_wasm (encode pm2))

/-- Translated from post_process_wasm: the transform stage, seeding the
optimizer with the hardcoded call/deploy entrypoint list. -/
def post_process_wasm (decode : File → Option PModule) (encode : PModule → File)
    (cm : CrateMetadata) (fs : FS) : Except BuildError Unit × FS :=
  post_process_with decode encode entrypoints cm fs

/-- The observable result of one wasm-opt invocation: exit status, captured
output streams, and the output file it produced (none when it wrote
nothing). -/
structure ToolOutput where
  status : Nat
  stdout : List Nat
  stderr : List Nat
  produced : Option File
deriving DecidableEq

/-- One item of console output. -/
inductive ConsoleItem where
  | message (s : String)
  | stdoutBytes (b : List Nat)
  | stderrBytes (b : List Nat)
deriving DecidableEq

/-- The recommendation printed when wasm-opt is not installed. -/
def wasmOptMissingMsg : String :=
  "wasm-opt is not installed. Install this tool on your system in order to reduce the size of your contract's Wasm binary. See https://github.com/WebAssembly/binaryen#tools"

/-- The size report printed after a successful optimization. -/
def sizeReport (originalSize optimizedSize : Nat) : String :=
  "Original wasm size: " ++ toString originalSize ++ ", Optimized: " ++ toString optimizedSize

/-- The path of the intermediate optimized artifact:
dest_wasm with its file name replaced by package_name-opt.wasm. -/
def optimizedPath (cm : CrateMetadata) : FPath :=
  cm.dest_wasm.dropLast ++ [cm.package_name ++ "-opt.wasm"]

/-- Translated from optimize_wasm: when wasm-opt is absent from the search
path, print a recommendation and succeed without touching the filesystem;
otherwise run it on the destination artifact, fail (dumping its captured
stdout and stderr) on a non-zero exit status, and on success report sizes
and rename the optimized artifact over the destination. The external tool
is modelled as an optional function from the input file it is given to its
observable output. -/
def optimize_wasm (tool : Option (Option File → ToolOutput)) (cm : CrateMetadata)
    (fs : FS) : Except BuildError Unit × FS × List ConsoleItem :=
  match tool with
  | none => (.ok (), fs, [.message wasmOptMissingMsg])
  | some run =>
    let r := run (fs cm.dest_wasm)
    let fs1 : FS :=
      match r.produced with
      | some f => fsWrite fs (optimizedPath cm) f
      | none => fs
    if r.status ≠ 0 then
      (.error .wasmOptFailed, fs1, [.stdoutBytes r.stdout, .stderrBytes r.stderr])
    else
      match fs1 cm.dest_wasm, fs1 (optimizedPath cm) with
      | some origBytes, some optBytes =>
        (.ok (), fsWrite (fsErase fs1 (optimizedPath cm)) cm.dest_wasm optBytes,
          [.message (sizeReport origBytes.length optBytes.length)])
      | _, _ => (.error .ioError, fs1, [])

/-! ## Sandboxed build scope

Modelled from the spec: the Workspace type with with_root_package_manifest
and using_temp lives in src/workspace.rs, outside the analysed source file;
the model follows section 4.4 of the specification (edits applied to a
private copy materialized at a temporary location, original restored
unconditionally when the scope ends).
-/

/-- A sandboxed build scope over one manifest: its path, the original
content captured for restoration, and the edited content to materialize. -/
structure BuildScope where
  manifest_path : FPath
  original : File
  edited : File
deriving DecidableEq

/-- The temporary location at which the edited manifest is materialized
(always distinct from the manifest path itself). -/
def tempManifestPath (scope : BuildScope) : FPath :=
  scope.manifest_path ++ ["liquid-temp-manifest"]

/-- Modelled from the spec: using_temp materializes the edited manifest at
a temporary location, invokes the build function there, and restores the
original state (original manifest content back in place, temporary copy
gone) whatever the build function did to the filesystem, before returning
the captured build result. -/
def using_temp {ρ : Type} (scope : BuildScope) (buildFn : FPath → FS → ρ × FS)
    (fs : FS) : ρ × FS :=
  let temp := tempManifestPath scope
  let fs1 := fsWrite fs temp scope.edited
  let res := buildFn temp fs1
  (res.1, fsWrite (fsErase res.2 temp) scope.manifest_path scope.original)

/-- Translated from build_cargo_project: read the manifest, queue the
manifest edits (crate-type removal, release LTO) — whose application to
manifest bytes is abstracted as applyEdits, failing fast on a malformed
manifest — and run the build inside a sandboxed scope. -/
def build_cargo_project (applyEdits : File → Option File)
    (buildFn : FPath → FS → Except BuildError Unit × FS) (cm : CrateMetadata)
    (fs : FS) : Except BuildError Unit × FS :=
  match fs cm.manifest_path with
  | none => (.error .invalidManifest, fs)
  | some original =>
    match applyEdits original with
    | none => (.error .invalidManifest, fs)
    | some edited =>
      using_temp ⟨cm.manifest_path, original, edited⟩ buildFn fs

/-- The terminal success message of the pipeline. -/
def readyMessage (cm : CrateMetadata) : String :=
  "Your contract is ready. You can find it here: " ++ String.intercalate "/" cm.dest_wasm

/-- Translated from execute_build: resolve the crate metadata, build the
cargo project inside the sandboxed scope, post-process the wasm artifact,
and optionally run the external optimizer; any stage failure aborts the
pipeline without attempting later stages. -/
def execute_build (md : CargoMetadata) (root_package_id : Nat) (manifest_path : FPath)
    (applyEdits : File → Option File)
    (buildFn : FPath → FS → Except BuildError Unit × FS)
    (decode : File → Option PModule) (encode : PModule → File)
    (tool : Option (Option File → ToolOutput))
    (fs : FS) : Outcome String × FS × List ConsoleItem :=
  match collect_crate_metadata md root_package_id manifest_path with
  | .panicked msg => (.panicked msg, fs, [])
  | .error e => (.error e, fs, [])
  | .ok cm =>
    match build_cargo_project applyEdits buildFn cm fs with
    | (.error _, fs1) => (.error "BuildFailed", fs1, [])
    | (.ok _, fs1) =>
      match post_process_wasm decode encode cm fs1 with
      | (.error _, fs2) => (.error "TransformFailed", fs2, [])
      | (.ok _, fs2) =>
        match optimize_wasm tool cm fs2 with
        | (.error _, fs3, con) => (.error "ExternalOptimizerError", fs3, con)
        | (.ok _, fs3, con) => (.ok (readyMessage cm), fs3, con)

/-! ## Helper lemmas -/

theorem preLastDot_eq_none {cs : List Char} (h : '.' ∉ cs) : preLastDot cs = none := by
  induction cs with
  | nil => rfl
  | cons c rest ih =>
    have hc : c ≠ '.' := fun hcc => h (hcc ▸ List.mem_cons_self c rest)
    have hr : '.' ∉ rest := fun hm => h (List.mem_cons_of_mem c hm)
    simp [preLastDot, ih hr, hc]

theorem normalize_data (s : String) :
    (normalize s).data = s.data.map fun c => if c = '-' then '_' else c := rfl

theorem normalize_no_dot {s : String} (h : '.' ∉ s.data) : '.' ∉ (normalize s).data := by
  rw [normalize_data]
  intro hm
  rcases List.mem_map.mp hm with ⟨c, hc, heq⟩
  by_cases hdash : c = '-'
  · simp [hdash] at heq
  · simp [hdash] at heq
    exact h (heq ▸ hc)

theorem setExtComp_no_dot {nm : String} (ext : String) (h : '.' ∉ nm.data) :
    setExtComp nm ext = nm ++ ⟨'.' :: ext.data⟩ := by
  obtain ⟨cs⟩ := nm
  simp only [setExtComp, preLastDot_eq_none h]
  rfl

theorem setExtension_append_single (p : FPath) (nm ext : String) :
    setExtension (p ++ [nm]) ext = p ++ [setExtComp nm ext] := by
  simp [setExtension]

/-! ## C2: metadata stripping -/

/-- C2: for every module, metadata stripping removes exactly the sections of
kind Custom, Name and Relocation — after stripping the module contains zero
sections of those kinds, regardless of how many existed before (including
zero) — and every other section is kept unchanged in its original relative
order: the operation is a filter over the section list. -/
theorem strip_custom_sections_removes_exactly_metadata (sections : List Sec) :
    ((strip_custom_sections sections).countP fun s => isMetadataSec s) = 0 ∧
    strip_custom_sections sections = (sections.filter fun s => !isMetadataSec s) ∧
    (strip_custom_sections sections).Sublist sections := by
  have hfe : strip_custom_sections sections = sections.filter fun s => !isMetadataSec s := by
    unfold strip_custom_sections
    congr 1
    funext s
    cases s <;> rfl
  refine ⟨?_, hfe, hfe ▸ List.filter_sublist sections⟩
  rw [hfe, List.countP_eq_zero]
  intro s hs
  have h2 := (List.mem_filter.mp hs).2
  simpa using h2

/-! ## C3: sandbox restoration -/

/-- C3: after the sandboxed build scope's using_temp returns — whatever the
build function did (success, failure, or any mutation of the filesystem) —
the on-disk manifest at the original path is byte-for-byte its pre-scope
content; likewise build_cargo_project never changes the manifest path. -/
theorem using_temp_restores_manifest {ρ : Type} (scope : BuildScope)
    (buildFn : FPath → FS → ρ × FS) (fs : FS)
    (hcap : fs scope.manifest_path = some scope.original)
    (applyEdits : File → Option File)
    (buildFn2 : FPath → FS → Except BuildError Unit × FS) (cm : CrateMetadata) (fs2 : FS) :
    (using_temp scope buildFn fs).2 scope.manifest_path = fs scope.manifest_path ∧
    (build_cargo_project applyEdits buildFn2 cm fs2).2 cm.manifest_path = fs2 cm.manifest_path := by
  constructor
  · rw [hcap]
    exact fsWrite_self _ _ _
  · unfold build_cargo_project
    cases hfs : fs2 cm.manifest_path with
    | none => simp [hfs]
    | some original =>
      simp only [hfs]
      cases happ : applyEdits original with
      | none =>
        simp only [happ]
        exact hfs
      | some edited =>
        simp only [happ]
        show (using_temp ⟨cm.manifest_path, original, edited⟩ buildFn2 fs2).2 cm.manifest_path =
          some original
        exact fsWrite_self _ _ _

/-- Witness for C3 at concrete inputs. -/
theorem using_temp_restores_manifest_witness :
    ((fun q => if q = ["Cargo.toml"] then some ([1, 2] : File) else none) : FS) ["Cargo.toml"] =
        some [1, 2] ∧
    ((using_temp ⟨["Cargo.toml"], [1, 2], [3]⟩
        (fun _ f => ((), fsWrite f ["Cargo.toml"] [9]))
        (fun q => if q = ["Cargo.toml"] then some ([1, 2] : File) else none)).2 ["Cargo.toml"] =
      (fun q => if q = ["Cargo.toml"] then some ([1, 2] : File) else none) ["Cargo.toml"] ∧
    (build_cargo_project (fun f => some f) (fun _ f => (.ok (), f))
        { manifest_path := ["Cargo.toml"]
          cargo_meta := ⟨[], []⟩
          package_name := "a"
          root_package := ⟨0, "a"⟩
          original_wasm := ["a.wasm"]
          dest_wasm := ["a.wasm"] }
        (fun q => if q = ["Cargo.toml"] then some ([1, 2] : File) else none)).2 ["Cargo.toml"] =
      (fun q => if q = ["Cargo.toml"] then some ([1, 2] : File) else none) ["Cargo.toml"]) :=
  ⟨by decide,
    using_temp_restores_manifest ⟨["Cargo.toml"], [1, 2], [3]⟩
      (fun _ f => ((), fsWrite f ["Cargo.toml"] [9]))
      (fun q => if q = ["Cargo.toml"] then some ([1, 2] : File) else none) (by decide)
      (fun f => some f) (fun _ f => (.ok (), f)) _ _⟩

/-! ## C5: failed transform leaves the destination untouched -/

/-- C5: whenever the Transform stage fails — for any cause (missing or
malformed artifact, optimizer failure) — the filesystem, and in particular
the destination artifact path, is left exactly as it was: no partially
rewritten module ever appears there. -/
theorem post_process_error_no_write (decode : File → Option PModule)
    (encode : PModule → File) (cm : CrateMetadata) (fs : FS) (e : BuildError)
    (h : (post_process_wasm decode encode cm fs).1 = .error e) :
    (post_process_wasm decode encode cm fs).2 = fs ∧
    (post_process_wasm decode encode cm fs).2 cm.dest_wasm = fs cm.dest_wasm := by
  have h2 : (post_process_wasm decode encode cm fs).2 = fs := by
    unfold post_process_wasm post_process_with at h ⊢
    cases horig : fs cm.original_wasm with
    | none => simp [horig]
    | some bytes =>
      cases hdec : decode bytes with
      | none => simp [horig, hdec]
      | some pm =>
        cases hopt : optimize pm.om entrypoints with
        | error oe => simp [horig, hdec, hopt]
        | ok om2 =>
          exfalso
          simp [horig, hdec, hopt] at h
  exact ⟨h2, by rw [h2]⟩

/-- Witness for C5 at concrete inputs: a decoder that rejects the artifact. -/
theorem post_process_error_no_write_witness :
    (post_process_wasm (fun _ => none) (fun _ => [])
        { manifest_path := ["Cargo.toml"]
          cargo_meta := ⟨[], []⟩
          package_name := "a"
          root_package := ⟨0, "a"⟩
          original_wasm := ["a.wasm"]
          dest_wasm := ["dest.wasm"] }
        (fun q => if q = ["a.wasm"] then some ([0] : File) else none)).1 =
      .error .loadingWasmFailed ∧
    (post_process_wasm (fun _ => none) (fun _ => [])
        { manifest_path := ["Cargo.toml"]
          cargo_meta := ⟨[], []⟩
          package_name := "a"
          root_package := ⟨0, "a"⟩
          original_wasm := ["a.wasm"]
          dest_wasm := ["dest.wasm"] }
        (fun q => if q = ["a.wasm"] then some ([0] : File) else none)).2 =
      (fun q => if q = ["a.wasm"] then some ([0] : File) else none) ∧
    (post_process_wasm (fun _ => none) (fun _ => [])
        { manifest_path := ["Cargo.toml"]
          cargo_meta := ⟨[], []⟩
          package_name := "a"
          root_package := ⟨0, "a"⟩
          original_wasm := ["a.wasm"]
          dest_wasm := ["dest.wasm"] }
        (fun q => if q = ["a.wasm"] then some ([0] : File) else none)).2 ["dest.wasm"] =
      (fun q => if q = ["a.wasm"] then some ([0] : File) else none) ["dest.wasm"] :=
  ⟨rfl,
    (post_process_error_no_write (fun _ => none) (fun _ => [])
        { manifest_path := ["Cargo.toml"]
          cargo_meta := ⟨[], []⟩
          package_name := "a"
          root_package := ⟨0, "a"⟩
          original_wasm := ["a.wasm"]
          dest_wasm := ["dest.wasm"] }
        (fun q => if q = ["a.wasm"] then some ([0] : File) else none) .loadingWasmFailed rfl).1,
    (post_process_error_no_write (fun _ => none) (fun _ => [])
        { manifest_path := ["Cargo.toml"]
          cargo_meta := ⟨[], []⟩
          package_name := "a"
          root_package := ⟨0, "a"⟩
          original_wasm := ["a.wasm"]
          dest_wasm := ["dest.wasm"] }
        (fun q => if q = ["a.wasm"] then some ([0] : File) else none) .loadingWasmFailed rfl).2⟩

/-! ## C9: artifact path derivation -/

/-- C9: for every package, the name deriving both artifact paths is the
package name with every hyphen replaced by an underscore; the raw artifact
path is target_dir/wasm32-unknown-unknown/release/(name).wasm and the
destination path is target_dir/(name).wasm, recorded once in the crate
metadata. -/
theorem collect_crate_metadata_paths (md : CargoMetadata) (root_package_id : Nat)
    (manifest_path : FPath) (root : Package)
    (hfind : (md.packages.find? fun p => p.id = root_package_id) = some root)
    (hdot : '.' ∉ root.name.data) :
    ∃ cm, collect_crate_metadata md root_package_id manifest_path = .ok cm ∧
      cm.package_name = normalize root.name ∧
      (normalize root.name).data = (root.name.data.map fun c => if c = '-' then '_' else c) ∧
      cm.original_wasm =
        md.target_directory ++
          ["wasm32-unknown-unknown", "release", normalize root.name ++ ".wasm"] ∧
      cm.dest_wasm = md.target_directory ++ [normalize root.name ++ ".wasm"] ∧
      cm.cargo_meta = md ∧ cm.root_package = root := by
  have hnd : '.' ∉ (normalize root.name).data := normalize_no_dot hdot
  have hcomp : setExtComp (normalize root.name) "wasm" = normalize root.name ++ ".wasm" := by
    rw [setExtComp_no_dot "wasm" hnd]
  have horig : setExtension
      (md.target_directory ++ ["wasm32-unknown-unknown", "release", normalize root.name])
      "wasm" =
      md.target_directory ++
        ["wasm32-unknown-unknown", "release", normalize root.name ++ ".wasm"] := by
    have h1 : md.target_directory ++ ["wasm32-unknown-unknown", "release", normalize root.name] =
        (md.target_directory ++ ["wasm32-unknown-unknown", "release"]) ++
          [normalize root.name] := by
      simp
    rw [h1, setExtension_append_single, hcomp]
    simp
  have hdest : setExtension (md.target_directory ++ [normalize root.name]) "wasm" =
      md.target_directory ++ [normalize root.name ++ ".wasm"] := by
    rw [setExtension_append_single, hcomp]
  unfold collect_crate_metadata
  rw [hfind]
  exact ⟨_, rfl, rfl, normalize_data root.name, horig, hdest, rfl, rfl⟩

/-- Witness for C9 at a concrete hyphenated package. -/
theorem collect_crate_metadata_paths_witness :
    ((([⟨7, "foo-bar"⟩] : List Package).find? fun p => p.id = 7) = some ⟨7, "foo-bar"⟩ ∧
      '.' ∉ "foo-bar".data) ∧
    ∃ cm, collect_crate_metadata ⟨[⟨7, "foo-bar"⟩], ["target"]⟩ 7 ["Cargo.toml"] = .ok cm ∧
      cm.package_name = normalize "foo-bar" ∧
      (normalize "foo-bar").data = ("foo-bar".data.map fun c => if c = '-' then '_' else c) ∧
      cm.original_wasm =
        ["target"] ++ ["wasm32-unknown-unknown", "release", normalize "foo-bar" ++ ".wasm"] ∧
      cm.dest_wasm = ["target"] ++ [normalize "foo-bar" ++ ".wasm"] ∧
      cm.cargo_meta = ⟨[⟨7, "foo-bar"⟩], ["target"]⟩ ∧ cm.root_package = ⟨7, "foo-bar"⟩ :=
  ⟨⟨by decide, by decide⟩,
    collect_crate_metadata_paths ⟨[⟨7, "foo-bar"⟩], ["target"]⟩ 7 ["Cargo.toml"] ⟨7, "foo-bar"⟩
      (by decide) (by decide)⟩

/-! ## C10: missing root package panics -/

/-- C10: if the resolved cargo metadata's package list contains no package
whose id equals the root package id, collect_crate_metadata panics through
expect (with the expect message) instead of returning an error result. -/
theorem collect_crate_metadata_panics (md : CargoMetadata) (root_package_id : Nat)
    (manifest_path : FPath) (h : ∀ p ∈ md.packages, p.id ≠ root_package_id) :
    collect_crate_metadata md root_package_id manifest_path =
      .panicked "The package is not in the `cargo metadata` output" ∧
    ∀ e, collect_crate_metadata md root_package_id manifest_path ≠ .error e := by
  have hfind : (md.packages.find? fun p => p.id = root_package_id) = none := by
    rw [List.find?_eq_none]
    intro p hp
    simpa using h p hp
  constructor
  · unfold collect_crate_metadata
    rw [hfind]
  · intro e
    unfold collect_crate_metadata
    rw [hfind]
    simp

/-- Witness for C10 at a concrete metadata whose package list misses the id. -/
theorem collect_crate_metadata_panics_witness :
    (∀ p ∈ ([⟨1, "a"⟩] : List Package), p.id ≠ 2) ∧
    (collect_crate_metadata ⟨[⟨1, "a"⟩], ["target"]⟩ 2 ["Cargo.toml"] =
        .panicked "The package is not in the `cargo metadata` output" ∧
      ∀ e, collect_crate_metadata ⟨[⟨1, "a"⟩], ["target"]⟩ 2 ["Cargo.toml"] ≠ .error e) :=
  ⟨by decide,
    collect_crate_metadata_panics ⟨[⟨1, "a"⟩], ["target"]⟩ 2 ["Cargo.toml"] (by decide)⟩

/-! ## Concrete sample objects for witnesses -/

/-- A sample package with a matching id. -/
def samplePkg : Package := ⟨1, "pkg"⟩

/-- Sample cargo metadata holding the sample package. -/
def sampleMd : CargoMetadata := ⟨[samplePkg], ["t"]⟩

/-- The crate metadata collect_crate_metadata derives from the sample. -/
def sampleCm : CrateMetadata :=
  { manifest_path := ["Cargo.toml"]
    cargo_meta := sampleMd
    package_name := "pkg"
    root_package := samplePkg
    original_wasm := ["t", "wasm32-unknown-unknown", "release", "pkg.wasm"]
    dest_wasm := ["t", "pkg.wasm"] }

/-- A sample filesystem holding the manifest and the raw artifact. -/
def sampleFs : FS := fun q =>
  if q = ["Cargo.toml"] then some [7]
  else if q = ["t", "wasm32-unknown-unknown", "release", "pkg.wasm"] then some [1]
  else none

/-- A one-function module exporting both entrypoints. -/
def sampleOm : OModule :=
  { funcs := [⟨[]⟩], nGlobals := 0, nTypes := 0, nTables := 0, nMems := 0
    exports := [⟨"call", 0⟩, ⟨"deploy", 0⟩] }

/-- A decoder producing the sample module with one custom section. -/
def sampleDecode : File → Option PModule := fun _ => some ⟨sampleOm, [Sec.Custom "nm" [1]]⟩

/-- A trivial encoder. -/
def sampleEncode : PModule → File := fun _ => [9]

/-- Manifest edits that always apply. -/
def idEdits : File → Option File := fun f => some f

/-- A build step that succeeds without touching the filesystem. -/
def okBuild : FPath → FS → Except BuildError Unit × FS := fun _ f => (.ok (), f)

/-- An external optimizer run that exits non-zero with captured streams. -/
def failTool : Option File → ToolOutput := fun _ => ⟨1, [5], [6], none⟩

/-- The filesystem after the sample build stage. -/
def sampleFs1 : FS := (build_cargo_project idEdits okBuild sampleCm sampleFs).2

/-- The filesystem after the sample transform stage. -/
def sampleFs2 : FS := (post_process_wasm sampleDecode sampleEncode sampleCm sampleFs1).2

/-! ## C4: external optimizer degradation -/

/-- C4: when the external optimizer executable is absent, the pipeline
still reaches Success and the destination artifact is byte-identical to
the Transform output (the filesystem is exactly the post-Transform one);
when it is present but exits with non-zero status, the pipeline fails with
the external-optimizer error and the tool's captured stdout and stderr are
both emitted in the diagnostics. -/
theorem optimizer_absence_tolerated (md : CargoMetadata) (root_package_id : Nat)
    (manifest_path : FPath) (applyEdits : File → Option File)
    (buildFn : FPath → FS → Except BuildError Unit × FS)
    (decode : File → Option PModule) (encode : PModule → File)
    (fs fs1 fs2 : FS) (cm : CrateMetadata) (run : Option File → ToolOutput)
    (hc : collect_crate_metadata md root_package_id manifest_path = .ok cm)
    (hb : build_cargo_project applyEdits buildFn cm fs = (.ok (), fs1))
    (hp : post_process_wasm decode encode cm fs1 = (.ok (), fs2)) :
    (execute_build md root_package_id manifest_path applyEdits buildFn decode encode none fs =
      (.ok (readyMessage cm), fs2, [.message wasmOptMissingMsg])) ∧
    ((run (fs2 cm.dest_wasm)).status ≠ 0 →
      (execute_build md root_package_id manifest_path applyEdits buildFn decode encode
          (some run) fs).1 = .error "ExternalOptimizerError" ∧
      ConsoleItem.stdoutBytes (run (fs2 cm.dest_wasm)).stdout ∈
        (execute_build md root_package_id manifest_path applyEdits buildFn decode encode
          (some run) fs).2.2 ∧
      ConsoleItem.stderrBytes (run (fs2 cm.dest_wasm)).stderr ∈
        (execute_build md root_package_id manifest_path applyEdits buildFn decode encode
          (some run) fs).2.2) := by
  have hx : ∀ tool, execute_build md root_package_id manifest_path applyEdits buildFn decode
      encode tool fs =
      (match optimize_wasm tool cm fs2 with
        | (.error _, fs3, con) => (.error "ExternalOptimizerError", fs3, con)
        | (.ok _, fs3, con) => (.ok (readyMessage cm), fs3, con)) := by
    intro tool
    unfold execute_build
    rw [hc]
    simp only [hb, hp]
  constructor
  · rw [hx none]
    rfl
  · intro hst
    have how : optimize_wasm (some run) cm fs2 =
        (.error .wasmOptFailed,
          (match (run (fs2 cm.dest_wasm)).produced with
            | some f => fsWrite fs2 (optimizedPath cm) f
            | none => fs2),
          [.stdoutBytes (run (fs2 cm.dest_wasm)).stdout,
            .stderrBytes (run (fs2 cm.dest_wasm)).stderr]) := by
      unfold optimize_wasm
      simp [hst]
    rw [hx (some run), how]
    refine ⟨rfl, ?_, ?_⟩ <;> simp

/-- Witness for C4 at concrete inputs. -/
theorem optimizer_absence_tolerated_witness :
    ((failTool (sampleFs2 sampleCm.dest_wasm)).status ≠ 0) ∧
    (execute_build sampleMd 1 ["Cargo.toml"] idEdits okBuild sampleDecode sampleEncode none
        sampleFs = (.ok (readyMessage sampleCm), sampleFs2, [.message wasmOptMissingMsg])) ∧
    (execute_build sampleMd 1 ["Cargo.toml"] idEdits okBuild sampleDecode sampleEncode
        (some failTool) sampleFs).1 = .error "ExternalOptimizerError" ∧
    ConsoleItem.stdoutBytes (failTool (sampleFs2 sampleCm.dest_wasm)).stdout ∈
      (execute_build sampleMd 1 ["Cargo.toml"] idEdits okBuild sampleDecode sampleEncode
        (some failTool) sampleFs).2.2 ∧
    ConsoleItem.stderrBytes (failTool (sampleFs2 sampleCm.dest_wasm)).stderr ∈
      (execute_build sampleMd 1 ["Cargo.toml"] idEdits okBuild sampleDecode sampleEncode
        (some failTool) sampleFs).2.2 :=
  have h := optimizer_absence_tolerated sampleMd 1 ["Cargo.toml"] idEdits okBuild sampleDecode
    sampleEncode sampleFs sampleFs1 sampleFs2 sampleCm failTool (by decide) rfl rfl
  have hst : (failTool (sampleFs2 sampleCm.dest_wasm)).status ≠ 0 := by decide
  ⟨hst, h.1, h.2 hst⟩

/-! ## C8: the entrypoint set is hardcoded, not caller-supplied -/

/-- A module whose caller-relevant export is named main rather than
call or deploy. -/
def mainOm : OModule :=
  { funcs := [⟨[]⟩], nGlobals := 0, nTypes := 0, nTables := 0, nMems := 0
    exports := [⟨"main", 0⟩] }

/-- Counterexample to C8: the entrypoint set seeding reachability is not
supplied by the caller of the pipeline. A module exporting the
caller-chosen entrypoint main optimizes successfully when main seeds
reachability, yet the Transform stage — whose interface to its caller
carries no entrypoint parameter — fails on the same module, because it
always seeds the hardcoded list call/deploy. -/
theorem entrypoints_not_caller_supplied :
    optimize mainOm ["main"] = .ok mainOm ∧
    (post_process_wasm (fun _ => some ⟨mainOm, []⟩) (fun _ => []) sampleCm sampleFs).1 =
      .error .optimizerFailed ∧
    entrypoints = ["call", "deploy"] := by
  refine ⟨by decide, ?_, rfl⟩
  decide

/-- C8 (amended): the set of entrypoint names that seeds reachability is
the fixed constant list call/deploy hardcoded in the Transform stage —
identical for every pipeline input, hence immutable for the duration of
every optimization pass — and the Transform stage fails with the optimizer
error exactly when the optimizer rejects the module for that constant
list. -/
theorem entrypoints_fixed (decode : File → Option PModule) (encode : PModule → File)
    (cm : CrateMetadata) (fs : FS) (bytes : File) (pm : PModule)
    (horig : fs cm.original_wasm = some bytes) (hdec : decode bytes = some pm) :
    entrypoints = ["call", "deploy"] ∧
    ((post_process_wasm decode encode cm fs).1 = .error .optimizerFailed ↔
      ∃ e, optimize pm.om ["call", "deploy"] = .error e) := by
  refine ⟨rfl, ?_⟩
  show (post_process_wasm decode encode cm fs).1 = .error .optimizerFailed ↔
    ∃ e, optimize pm.om entrypoints = .error e
  unfold post_process_wasm post_process_with
  rw [horig]
  simp only [hdec]
  cases hopt : optimize pm.om entrypoints with
  | error e => simp
  | ok om2 => simp

/-- Witness for C8 (amended) at concrete inputs. -/
theorem entrypoints_fixed_witness :
    (sampleFs (sampleCm.original_wasm) = some [1] ∧
      ((fun _ => some ⟨mainOm, ([] : List Sec)⟩) : File → Option PModule) [1] =
        some ⟨mainOm, []⟩) ∧
    (entrypoints = ["call", "deploy"] ∧
      ((post_process_wasm (fun _ => some ⟨mainOm, []⟩) (fun _ => []) sampleCm sampleFs).1 =
          .error .optimizerFailed ↔
        ∃ e, optimize mainOm ["call", "deploy"] = .error e)) :=
  ⟨⟨by decide, rfl⟩,
    entrypoints_fixed (fun _ => some ⟨mainOm, []⟩) (fun _ => []) sampleCm sampleFs [1] ⟨mainOm, []⟩
      (by decide) rfl⟩

/-! ## Closure lemmas for the reachability traversal -/

theorem subset_reachStep (funcs : List Func) (s : Finset Nat) : s ⊆ reachStep funcs s :=
  Finset.subset_union_left

theorem visitedN_mono_succ (funcs : List Func) (seeds : Finset Nat) (n : Nat) :
    visitedN funcs seeds n ⊆ visitedN funcs seeds (n + 1) :=
  subset_reachStep funcs _

theorem visitedN_mono (funcs : List Func) (seeds : Finset Nat) {a b : Nat} (h : a ≤ b) :
    visitedN funcs seeds a ⊆ visitedN funcs seeds b := by
  induction h with
  | refl => exact subset_rfl
  | step _ ih => exact subset_trans ih (visitedN_mono_succ funcs seeds _)

theorem funcRefsOf_eq_nil_of_ge (funcs : List Func) {i : Nat} (h : funcs.length ≤ i) :
    funcRefsOf funcs i = [] := by
  unfold funcRefsOf refsOf
  rw [List.getElem?_eq_none h]
  rfl

theorem visitedN_subset_bigU (funcs : List Func) (seeds : Finset Nat) (n : Nat) :
    visitedN funcs seeds n ⊆
      seeds ∪ (Finset.range funcs.length).biUnion fun i => (funcRefsOf funcs i).toFinset := by
  induction n with
  | zero => exact Finset.subset_union_left
  | succ k ih =>
    intro x hx
    rw [show visitedN funcs seeds (k + 1) = reachStep funcs (visitedN funcs seeds k) from rfl,
      reachStep] at hx
    rcases Finset.mem_union.mp hx with h1 | h2
    · exact ih h1
    · rcases Finset.mem_biUnion.mp h2 with ⟨i, hi, hx2⟩
      by_cases hlen : i < funcs.length
      · exact Finset.mem_union_right _
          (Finset.mem_biUnion.mpr ⟨i, Finset.mem_range.mpr hlen, hx2⟩)
      · rw [funcRefsOf_eq_nil_of_ge funcs (le_of_not_lt hlen)] at hx2
        simp at hx2

theorem visitedN_stab (funcs : List Func) (seeds : Finset Nat) {n : Nat}
    (h : visitedN funcs seeds (n + 1) = visitedN funcs seeds n) :
    ∀ m, n ≤ m → visitedN funcs seeds m = visitedN funcs seeds n := by
  intro m hm
  induction m with
  | zero => cases Nat.le_zero.mp hm; rfl
  | succ k ih =>
    rcases Nat.lt_or_ge n (k + 1) with hlt | hge
    · have hk : n ≤ k := Nat.lt_succ_iff.mp hlt
      have hkn : visitedN funcs seeds k = visitedN funcs seeds n := ih hk
      show reachStep funcs (visitedN funcs seeds k) = _
      rw [hkn]
      exact h
    · have : n = k + 1 := le_antisymm hm hge
      rw [this]

theorem exists_stab (funcs : List Func) (seeds : Finset Nat) :
    ∃ k ≤ reachBound funcs seeds,
      visitedN funcs seeds (k + 1) = visitedN funcs seeds k := by
  by_contra hcon
  push_neg at hcon
  have hgrow : ∀ k, k ≤ reachBound funcs seeds + 1 → k ≤ (visitedN funcs seeds k).card := by
    intro k
    induction k with
    | zero => intro _; exact Nat.zero_le _
    | succ j ih =>
      intro hk
      have hj : j ≤ reachBound funcs seeds := by omega
      have hne := hcon j hj
      have hss : visitedN funcs seeds j ⊂ visitedN funcs seeds (j + 1) :=
        lt_of_le_of_ne (visitedN_mono_succ funcs seeds j) (Ne.symm hne)
      have hcard := Finset.card_lt_card hss
      have hih := ih (by omega)
      omega
  have h1 := hgrow (reachBound funcs seeds + 1) le_rfl
  have h2 : (visitedN funcs seeds (reachBound funcs seeds + 1)).card ≤
      reachBound funcs seeds :=
    Finset.card_le_card (visitedN_subset_bigU funcs seeds _)
  omega

theorem visitedF_fixed (funcs : List Func) (seeds : Finset Nat) :
    reachStep funcs (visitedF funcs seeds) = visitedF funcs seeds := by
  obtain ⟨k, hk, hstab⟩ := exists_stab funcs seeds
  have h1 : visitedN funcs seeds (reachBound funcs seeds + 1) = visitedN funcs seeds k :=
    visitedN_stab funcs seeds hstab _ (by omega)
  have h2 : visitedN funcs seeds (reachBound funcs seeds + 2) = visitedN funcs seeds k :=
    visitedN_stab funcs seeds hstab _ (by omega)
  show visitedN funcs seeds (reachBound funcs seeds + 2) = visitedF funcs seeds
  rw [h2, visitedF, h1]

theorem seeds_subset_visitedF (funcs : List Func) (seeds : Finset Nat) :
    seeds ⊆ visitedF funcs seeds :=
  visitedN_mono funcs seeds (Nat.zero_le _)

/-- The visited set computed by the bounded traversal is exactly the
transitive reachability closure. -/
theorem mem_visitedF_iff (funcs : List Func) (sd : List Nat) (i : Nat) :
    i ∈ visitedF funcs sd.toFinset ↔ Reach funcs sd i := by
  constructor
  · suffices h : ∀ n j, j ∈ visitedN funcs sd.toFinset n → Reach funcs sd j from h _ i
    intro n
    induction n with
    | zero =>
      intro j hj
      exact Reach.seed (List.mem_toFinset.mp hj)
    | succ k ih =>
      intro j hj
      rw [show visitedN funcs sd.toFinset (k + 1) =
        reachStep funcs (visitedN funcs sd.toFinset k) from rfl, reachStep] at hj
      rcases Finset.mem_union.mp hj with h1 | h2
      · exact ih j h1
      · rcases Finset.mem_biUnion.mp h2 with ⟨i0, hi0, hj2⟩
        exact Reach.step (ih i0 hi0) (List.mem_toFinset.mp hj2)
  · intro hr
    induction hr with
    | seed hm => exact seeds_subset_visitedF funcs sd.toFinset (List.mem_toFinset.mpr hm)
    | @step i0 j0 _ href ih =>
      have hmem : j0 ∈ reachStep funcs (visitedF funcs sd.toFinset) :=
        Finset.mem_union_right _ (Finset.mem_biUnion.mpr ⟨i0, ih, List.mem_toFinset.mpr href⟩)
      rwa [visitedF_fixed] at hmem

/-! ## mapOpt and remapIn lemmas -/

theorem mapOpt_length {α β : Type} {f : α → Option β} :
    ∀ {l : List α} {l2 : List β}, mapOpt f l = some l2 → l2.length = l.length := by
  intro l
  induction l with
  | nil =>
    intro l2 h
    simp only [mapOpt, Option.some.injEq] at h
    subst h
    rfl
  | cons a t ih =>
    intro l2 h
    unfold mapOpt at h
    cases hfa : f a with
    | none => rw [hfa] at h; simp at h
    | some b =>
      rw [hfa] at h
      cases hmt : mapOpt f t with
      | none => rw [hmt] at h; simp at h
      | some t2 =>
        rw [hmt] at h
        simp only [Option.some.injEq] at h
        subst h
        simp [ih hmt]

theorem mapOpt_get {α β : Type} {f : α → Option β} :
    ∀ {l : List α} {l2 : List β}, mapOpt f l = some l2 →
      ∀ k (hk : k < l.length) (hk2 : k < l2.length),
        f (l.get ⟨k, hk⟩) = some (l2.get ⟨k, hk2⟩) := by
  intro l
  induction l with
  | nil => intro l2 h k hk; exact absurd hk (by simp)
  | cons a t ih =>
    intro l2 h k hk hk2
    unfold mapOpt at h
    cases hfa : f a with
    | none => rw [hfa] at h; simp at h
    | some b =>
      rw [hfa] at h
      cases hmt : mapOpt f t with
      | none => rw [hmt] at h; simp at h
      | some t2 =>
        rw [hmt] at h
        simp only [Option.some.injEq] at h
        subst h
        cases k with
        | zero => exact hfa
        | succ k0 =>
          have hk0 : k0 < t.length := by simpa using hk
          have hk02 : k0 < t2.length := by simpa using hk2
          exact ih hmt k0 hk0 hk02

theorem mapOpt_mem {α β : Type} {f : α → Option β} {l : List α} {l2 : List β}
    (h : mapOpt f l = some l2) {a : α} (ha : a ∈ l) : ∃ b, f a = some b ∧ b ∈ l2 := by
  induction l generalizing l2 with
  | nil => simp at ha
  | cons x t ih =>
    unfold mapOpt at h
    cases hfa : f x with
    | none => rw [hfa] at h; simp at h
    | some b =>
      rw [hfa] at h
      cases hmt : mapOpt f t with
      | none => rw [hmt] at h; simp at h
      | some t2 =>
        rw [hmt] at h
        simp at h
        rcases List.mem_cons.mp ha with rfl | hat
        · exact ⟨b, hfa, by rw [← h]; exact List.mem_cons_self _ _⟩
        · rcases ih hmt hat with ⟨b2, hb2, hbm⟩
          exact ⟨b2, hb2, by rw [← h]; exact List.mem_cons_of_mem _ hbm⟩

theorem mapOpt_mem_rev {α β : Type} {f : α → Option β} {l : List α} {l2 : List β}
    (h : mapOpt f l = some l2) {b : β} (hb : b ∈ l2) : ∃ a, a ∈ l ∧ f a = some b := by
  induction l generalizing l2 with
  | nil =>
    simp only [mapOpt, Option.some.injEq] at h
    subst h
    simp at hb
  | cons x t ih =>
    unfold mapOpt at h
    cases hfa : f x with
    | none => rw [hfa] at h; simp at h
    | some b0 =>
      rw [hfa] at h
      cases hmt : mapOpt f t with
      | none => rw [hmt] at h; simp at h
      | some t2 =>
        rw [hmt] at h
        simp only [Option.some.injEq] at h
        subst h
        rcases List.mem_cons.mp hb with rfl | hbt
        · exact ⟨x, List.mem_cons_self _ _, hfa⟩
        · rcases ih hmt hbt with ⟨a, hat, hfab⟩
          exact ⟨a, List.mem_cons_of_mem _ hat, hfab⟩

theorem mapOpt_some_of_pointwise {α β : Type} {f : α → Option β} :
    ∀ {l : List α} {l2 : List β}, l.length = l2.length →
      (∀ k (hk : k < l.length) (hk2 : k < l2.length),
        f (l.get ⟨k, hk⟩) = some (l2.get ⟨k, hk2⟩)) →
      mapOpt f l = some l2 := by
  intro l
  induction l with
  | nil =>
    intro l2 hlen _
    cases l2 with
    | nil => rfl
    | cons b t2 => simp at hlen
  | cons a t ih =>
    intro l2 hlen hpt
    cases l2 with
    | nil => simp at hlen
    | cons b t2 =>
      have h0 := hpt 0 (by simp) (by simp)
      have hrest : mapOpt f t = some t2 := by
        apply ih (by simpa using hlen)
        intro k hk hk2
        have := hpt (k + 1) (by simpa using Nat.succ_lt_succ hk)
          (by simpa using Nat.succ_lt_succ hk2)
        simpa using this
      unfold mapOpt
      rw [show f a = some b from h0, hrest]

theorem remapIn_isSome_iff {kept : List Nat} {i : Nat} :
    (remapIn kept i).isSome = true ↔ i ∈ kept := by
  induction kept with
  | nil => simp [remapIn]
  | cons k rest ih =>
    by_cases hk : k = i
    · simp [remapIn, hk]
    · rw [remapIn, if_neg hk, List.mem_cons]
      cases hr : remapIn rest i with
      | none =>
        rw [hr] at ih
        simp only [Option.isSome_none, Bool.false_eq_true, false_iff] at ih
        simp [ih, Ne.symm hk]
      | some j =>
        rw [hr] at ih
        simp only [Option.isSome_some, true_iff] at ih
        simp [ih]

theorem remapIn_lt {kept : List Nat} {i j : Nat} (h : remapIn kept i = some j) :
    j < kept.length := by
  induction kept generalizing j with
  | nil => simp [remapIn] at h
  | cons k rest ih =>
    by_cases hk : k = i
    · rw [remapIn, if_pos hk] at h
      cases h
      simp
    · rw [remapIn, if_neg hk] at h
      cases hr : remapIn rest i with
      | none => rw [hr] at h; simp at h
      | some j0 =>
        rw [hr] at h
        simp at h
        have := ih hr
        simp [← h]
        omega

theorem remapIn_get {kept : List Nat} {i j : Nat} (h : remapIn kept i = some j) :
    kept.get ⟨j, remapIn_lt h⟩ = i := by
  induction kept generalizing j with
  | nil => simp [remapIn] at h
  | cons k rest ih =>
    by_cases hk : k = i
    · rw [remapIn, if_pos hk] at h
      cases h
      exact hk
    · rw [remapIn, if_neg hk] at h
      cases hr : remapIn rest i with
      | none => rw [hr] at h; simp at h
      | some j0 =>
        rw [hr] at h
        simp at h
        cases h
        exact ih hr

theorem remapIn_of_get {kept : List Nat} (hnd : kept.Nodup) (j : Nat)
    (hj : j < kept.length) : remapIn kept (kept.get ⟨j, hj⟩) = some j := by
  induction kept generalizing j with
  | nil => simp at hj
  | cons k rest ih =>
    cases j with
    | zero => simp [remapIn]
    | succ j0 =>
      have hj0 : j0 < rest.length := by simpa using hj
      have hget : (k :: rest).get ⟨j0 + 1, hj⟩ = rest.get ⟨j0, hj0⟩ := rfl
      rw [hget]
      have hknotin : k ∉ rest := (List.nodup_cons.mp hnd).1
      have hne : k ≠ rest.get ⟨j0, hj0⟩ := by
        intro hcc
        apply hknotin
        rw [hcc]
        exact List.get_mem rest j0 hj0
      rw [remapIn, if_neg hne, ih (List.nodup_cons.mp hnd).2 j0 hj0]
      rfl

theorem remapIn_eq_none_iff {kept : List Nat} {i : Nat} :
    remapIn kept i = none ↔ i ∉ kept := by
  rw [← remapIn_isSome_iff]
  cases remapIn kept i <;> simp

/-! ## Characterization of the kept entries -/

/-- A semantic entry is referenced by the reachability closure: some
reachable function records it among its references. -/
def SymRef (funcs : List Func) (sd : List Nat) (s : Sym) : Prop :=
  ∃ i, Reach funcs sd i ∧ s ∈ refsOf funcs i

theorem symUsed_iff (m : OModule) (sd : List Nat) (s : Sym) :
    symUsed m (visitedF m.funcs sd.toFinset) s = true ↔ SymRef m.funcs sd s := by
  unfold symUsed SymRef
  rw [decide_eq_true_eq]
  constructor
  · rintro ⟨i, hi, hs⟩
    exact ⟨i, (mem_visitedF_iff m.funcs sd i).mp hi, hs⟩
  · rintro ⟨i, hi, hs⟩
    exact ⟨i, (mem_visitedF_iff m.funcs sd i).mpr hi, hs⟩

theorem mem_keptFuncs_iff (m : OModule) (sd : List Nat) (i : Nat) :
    i ∈ keptOfKind m (visitedF m.funcs sd.toFinset) .func ↔
      i < m.funcs.length ∧ Reach m.funcs sd i := by
  simp only [keptOfKind]
  rw [List.mem_filter, List.mem_range, decide_eq_true_eq, mem_visitedF_iff]

theorem mem_keptOther_iff (m : OModule) (sd : List Nat) (k : SymKind) (hk : k ≠ .func)
    (i : Nat) :
    i ∈ keptOfKind m (visitedF m.funcs sd.toFinset) k ↔
      i < countOfKind m k ∧ SymRef m.funcs sd ⟨k, i⟩ := by
  cases k with
  | func => exact absurd rfl hk
  | glob =>
    simp only [keptOfKind]
    rw [List.mem_filter, List.mem_range, symUsed_iff]
  | typ =>
    simp only [keptOfKind]
    rw [List.mem_filter, List.mem_range, symUsed_iff]
  | table =>
    simp only [keptOfKind]
    rw [List.mem_filter, List.mem_range, symUsed_iff]
  | mem =>
    simp only [keptOfKind]
    rw [List.mem_filter, List.mem_range, symUsed_iff]

theorem keptOfKind_nodup (m : OModule) (vis : Finset Nat) (k : SymKind) :
    (keptOfKind m vis k).Nodup := by
  cases k <;> exact (List.nodup_range _).filter _

/-! ## C1: the transform keeps exactly the reachability closure -/

/-- C1: for every module and entrypoint set, the transform keeps every
function reachable by a call/reference chain from a resolved entrypoint —
it survives at a definite compacted index carrying its remapped body — and
removes every function outside the closure (no compacted index maps to it);
for the other semantic index spaces (globals, types, tables, memory
imports), the rewritten module retains exactly the entries referenced by
the closure. -/
theorem optimize_reachability_closure (m : OModule) (eps : List String) (sd : List Nat)
    (m2 : OModule) (hsd : resolveSeeds m eps = some sd) (hok : optimize m eps = .ok m2) :
    (∀ i, i < m.funcs.length → Reach m.funcs sd i →
      ∃ j, j < m2.funcs.length ∧
        remapIn (keptOfKind m (visitedF m.funcs sd.toFinset) .func) i = some j ∧
        m2.funcs[j]? = m.funcs[i]?.bind (remapFunc m (visitedF m.funcs sd.toFinset))) ∧
    (∀ i, i < m.funcs.length → ¬ Reach m.funcs sd i →
      remapIn (keptOfKind m (visitedF m.funcs sd.toFinset) .func) i = none) ∧
    m2.funcs.length = (keptOfKind m (visitedF m.funcs sd.toFinset) .func).length ∧
    (∀ k : SymKind, k ≠ .func →
      countOfKind m2 k = (keptOfKind m (visitedF m.funcs sd.toFinset) k).length) ∧
    (∀ k : SymKind, k ≠ .func → ∀ i,
      i ∈ keptOfKind m (visitedF m.funcs sd.toFinset) k ↔
        i < countOfKind m k ∧ SymRef m.funcs sd ⟨k, i⟩) := by
  simp only [optimize, hsd] at hok
  split at hok
  next funcs2 exports2 hf he =>
    injection hok with hok2
    subst hok2
    refine ⟨?_, ?_, mapOpt_length hf, ?_, ?_⟩
    · intro i hi hr
      have hmemk : i ∈ keptOfKind m (visitedF m.funcs sd.toFinset) .func :=
        (mem_keptFuncs_iff m sd i).mpr ⟨hi, hr⟩
      obtain ⟨j, hj⟩ : ∃ j,
          remapIn (keptOfKind m (visitedF m.funcs sd.toFinset) .func) i = some j :=
        Option.isSome_iff_exists.mp (remapIn_isSome_iff.mpr hmemk)
      have hjlt := remapIn_lt hj
      have hget := remapIn_get hj
      have hlen2 : funcs2.length = (keptOfKind m (visitedF m.funcs sd.toFinset) .func).length :=
        mapOpt_length hf
      have hjlt2 : j < funcs2.length := by rw [hlen2]; exact hjlt
      have hgk := mapOpt_get hf j hjlt hjlt2
      rw [hget] at hgk
      refine ⟨j, hjlt2, hj, ?_⟩
      show funcs2[j]? = _
      rw [List.getElem?_eq_getElem hjlt2]
      simpa using hgk.symm
    · intro i hi hnr
      apply remapIn_eq_none_iff.mpr
      intro hmem
      exact hnr ((mem_keptFuncs_iff m sd i).mp hmem).2
    · intro k hk
      cases k with
      | func => exact absurd rfl hk
      | glob => rfl
      | typ => rfl
      | table => rfl
      | mem => rfl
    · intro k hk i
      exact mem_keptOther_iff m sd k hk i
  next =>
    simp at hok

/-- A module with live functions 0 and 1 (reaching global 0 and type 0)
and a dead function 2; the table and memory entries are unreferenced. -/
def mW : OModule :=
  { funcs := [⟨[⟨.func, 1⟩, ⟨.glob, 0⟩]⟩, ⟨[⟨.typ, 0⟩]⟩, ⟨[]⟩]
    nGlobals := 2, nTypes := 1, nTables := 1, nMems := 1
    exports := [⟨"call", 0⟩, ⟨"deploy", 0⟩] }

/-- The optimizer output on mW: the dead function, the dead global and the
unreferenced table and memory entries are gone. -/
def m2W : OModule :=
  { funcs := [⟨[⟨.func, 1⟩, ⟨.glob, 0⟩]⟩, ⟨[⟨.typ, 0⟩]⟩]
    nGlobals := 1, nTypes := 1, nTables := 0, nMems := 0
    exports := [⟨"call", 0⟩, ⟨"deploy", 0⟩] }

/-- Witness for C1 at the concrete module mW. -/
theorem optimize_reachability_closure_witness :
    (resolveSeeds mW entrypoints = some [0, 0] ∧ optimize mW entrypoints = .ok m2W) ∧
    ((∀ i, i < mW.funcs.length → Reach mW.funcs [0, 0] i →
      ∃ j, j < m2W.funcs.length ∧
        remapIn (keptOfKind mW (visitedF mW.funcs ([0, 0] : List Nat).toFinset) .func) i =
          some j ∧
        m2W.funcs[j]? =
          mW.funcs[i]?.bind (remapFunc mW (visitedF mW.funcs ([0, 0] : List Nat).toFinset))) ∧
    (∀ i, i < mW.funcs.length → ¬ Reach mW.funcs [0, 0] i →
      remapIn (keptOfKind mW (visitedF mW.funcs ([0, 0] : List Nat).toFinset) .func) i =
        none) ∧
    m2W.funcs.length =
      (keptOfKind mW (visitedF mW.funcs ([0, 0] : List Nat).toFinset) .func).length ∧
    (∀ k : SymKind, k ≠ .func →
      countOfKind m2W k =
        (keptOfKind mW (visitedF mW.funcs ([0, 0] : List Nat).toFinset) k).length) ∧
    (∀ k : SymKind, k ≠ .func → ∀ i,
      i ∈ keptOfKind mW (visitedF mW.funcs ([0, 0] : List Nat).toFinset) k ↔
        i < countOfKind mW k ∧ SymRef mW.funcs [0, 0] ⟨k, i⟩)) :=
  ⟨⟨by decide, by decide⟩,
    optimize_reachability_closure mW entrypoints [0, 0] m2W (by decide) (by decide)⟩

/-! ## C6: unknown entrypoint -/

theorem mapOpt_eq_none_of_mem {α β : Type} {f : α → Option β} {l : List α} {a : α}
    (ha : a ∈ l) (hfa : f a = none) : mapOpt f l = none := by
  induction l with
  | nil => simp at ha
  | cons x t ih =>
    rcases List.mem_cons.mp ha with rfl | hat
    · cases hmt : mapOpt f t <;> simp [mapOpt, hfa, hmt]
    · cases hfx : f x <;> simp [mapOpt, hfx, ih hat]

/-- C6: when the artifact's export section lacks one of the entrypoint
names, the optimizer fails with UnknownEntrypoint, the Transform stage
fails without mutating the filesystem (the artifact keeps its prior
bytes), and the whole build ends in failure right there: the external
optimizer stage is never invoked (empty console trace) and nothing is
retried. -/
theorem unknown_entrypoint_fatal (md : CargoMetadata) (root_package_id : Nat)
    (manifest_path : FPath) (applyEdits : File → Option File)
    (buildFn : FPath → FS → Except BuildError Unit × FS)
    (decode : File → Option PModule) (encode : PModule → File)
    (tool : Option (Option File → ToolOutput))
    (fs fs1 : FS) (cm : CrateMetadata) (bytes : File) (pm : PModule) (nm : String)
    (hc : collect_crate_metadata md root_package_id manifest_path = .ok cm)
    (hb : build_cargo_project applyEdits buildFn cm fs = (.ok (), fs1))
    (horig : fs1 cm.original_wasm = some bytes)
    (hdec : decode bytes = some pm)
    (hname : nm ∈ entrypoints)
    (hmiss : ∀ e ∈ pm.om.exports, e.name ≠ nm) :
    optimize pm.om entrypoints = .error .unknownEntrypoint ∧
    post_process_wasm decode encode cm fs1 = (.error .optimizerFailed, fs1) ∧
    execute_build md root_package_id manifest_path applyEdits buildFn decode encode tool fs =
      (.error "TransformFailed", fs1, []) := by
  have hre : resolveEntrypoint pm.om nm = none := by
    unfold resolveEntrypoint
    rw [List.find?_eq_none.mpr]
    · rfl
    · intro e he
      simpa using hmiss e he
  have hrs : resolveSeeds pm.om entrypoints = none :=
    mapOpt_eq_none_of_mem hname hre
  have hopt : optimize pm.om entrypoints = .error .unknownEntrypoint := by
    unfold optimize
    rw [hrs]
  have hpp : post_process_wasm decode encode cm fs1 = (.error .optimizerFailed, fs1) := by
    unfold post_process_wasm post_process_with
    rw [horig]
    simp only [hdec, hopt]
  refine ⟨hopt, hpp, ?_⟩
  unfold execute_build
  rw [hc]
  simp only [hb, hpp]

/-- Witness for C6 at a module exporting only main. -/
theorem unknown_entrypoint_fatal_witness :
    (collect_crate_metadata sampleMd 1 ["Cargo.toml"] = .ok sampleCm ∧
      sampleFs1 sampleCm.original_wasm = some [1] ∧
      "call" ∈ entrypoints ∧
      (∀ e ∈ mainOm.exports, e.name ≠ "call")) ∧
    (optimize mainOm entrypoints = .error .unknownEntrypoint ∧
    post_process_wasm (fun _ => some ⟨mainOm, []⟩) sampleEncode sampleCm sampleFs1 =
      (.error .optimizerFailed, sampleFs1) ∧
    execute_build sampleMd 1 ["Cargo.toml"] idEdits okBuild (fun _ => some ⟨mainOm, []⟩)
        sampleEncode none sampleFs =
      (.error "TransformFailed", sampleFs1, [])) :=
  ⟨⟨by decide, by decide, by decide, by decide⟩,
    unknown_entrypoint_fatal sampleMd 1 ["Cargo.toml"] idEdits okBuild
      (fun _ => some ⟨mainOm, []⟩) sampleEncode none sampleFs sampleFs1 sampleCm [1]
      ⟨mainOm, []⟩ "call" (by decide) rfl (by decide) rfl (by decide) (by decide)⟩

/-! ## Further mapOpt, remapIn and find? lemmas (towards idempotence) -/

theorem mapOpt_congr {α β : Type} {f g : α → Option β} :
    ∀ {l : List α}, (∀ a ∈ l, f a = g a) → mapOpt f l = mapOpt g l := by
  intro l
  induction l with
  | nil => intro _; rfl
  | cons x t ih =>
    intro h
    unfold mapOpt
    rw [h x (List.mem_cons_self x t), ih fun a ha => h a (List.mem_cons_of_mem x ha)]

theorem mapOpt_bind_comp {α β γ : Type} {f : α → Option β} {g : β → Option γ} :
    ∀ {l : List α} {l1 : List β} {l2 : List γ}, mapOpt f l = some l1 →
      mapOpt g l1 = some l2 → mapOpt (fun a => (f a).bind g) l = some l2 := by
  intro l
  induction l with
  | nil =>
    intro l1 l2 h1 h2
    simp only [mapOpt, Option.some.injEq] at h1
    subst h1
    simpa [mapOpt] using h2
  | cons x t ih =>
    intro l1 l2 h1 h2
    unfold mapOpt at h1
    cases hfx : f x with
    | none => rw [hfx] at h1; simp at h1
    | some b =>
      rw [hfx] at h1
      cases hmt : mapOpt f t with
      | none => rw [hmt] at h1; simp at h1
      | some t1 =>
        rw [hmt] at h1
        simp only [Option.some.injEq] at h1
        subst h1
        unfold mapOpt at h2
        cases hgb : g b with
        | none => rw [hgb] at h2; simp at h2
        | some c =>
          rw [hgb] at h2
          cases hmt1 : mapOpt g t1 with
          | none => rw [hmt1] at h2; simp at h2
          | some t2 =>
            rw [hmt1] at h2
            simp only [Option.some.injEq] at h2
            subst h2
            unfold mapOpt
            rw [show (f x).bind g = some c by rw [hfx]; exact hgb, ih hmt hmt1]

theorem mapOpt_some_of_forall {α β : Type} {f : α → Option β} :
    ∀ {l : List α}, (∀ a ∈ l, (f a).isSome = true) → ∃ l2, mapOpt f l = some l2 := by
  intro l
  induction l with
  | nil => intro _; exact ⟨[], rfl⟩
  | cons x t ih =>
    intro h
    obtain ⟨b, hb⟩ := Option.isSome_iff_exists.mp (h x (List.mem_cons_self x t))
    obtain ⟨t2, ht2⟩ := ih fun a ha => h a (List.mem_cons_of_mem x ha)
    exact ⟨b :: t2, by unfold mapOpt; rw [hb, ht2]⟩

theorem mapOpt_id_of_forall {α : Type} {f : α → Option α} :
    ∀ {l : List α}, (∀ a ∈ l, f a = some a) → mapOpt f l = some l := by
  intro l
  induction l with
  | nil => intro _; rfl
  | cons x t ih =>
    intro h
    unfold mapOpt
    rw [h x (List.mem_cons_self x t), ih fun a ha => h a (List.mem_cons_of_mem x ha)]

theorem remapIn_range {n i : Nat} (h : i < n) : remapIn (List.range n) i = some i := by
  have h2 : i < (List.range n).length := by simpa using h
  have := remapIn_of_get (List.nodup_range n) i h2
  rwa [List.get_range] at this

theorem find?_filter_of_imp {α : Type} {p q : α → Bool} (l : List α)
    (h : ∀ x, p x = true → q x = true) : (l.filter q).find? p = l.find? p := by
  induction l with
  | nil => rfl
  | cons x t ih =>
    by_cases hq : q x = true
    · rw [List.filter_cons_of_pos hq]
      by_cases hp : p x = true
      · rw [List.find?_cons_of_pos _ hp, List.find?_cons_of_pos _ hp]
      · rw [List.find?_cons_of_neg _ hp, List.find?_cons_of_neg _ hp, ih]
    · rw [List.filter_cons_of_neg (by simpa using hq)]
      have hp : ¬ p x = true := fun hpx => hq (h x hpx)
      rw [List.find?_cons_of_neg _ hp, ih]

theorem find?_mapOpt_name {kf : List Nat} (nm : String) :
    ∀ {l l2 : List ExportEntry},
      mapOpt (fun e => (remapIn kf e.func).map fun j => ExportEntry.mk e.name j) l =
        some l2 →
      ((l.find? fun e => e.name = nm) = none → (l2.find? fun e => e.name = nm) = none) ∧
      (∀ e0, (l.find? fun e => e.name = nm) = some e0 →
        ∃ j, remapIn kf e0.func = some j ∧
          (l2.find? fun e => e.name = nm) = some ⟨e0.name, j⟩) := by
  intro l
  induction l with
  | nil =>
    intro l2 h
    simp only [mapOpt, Option.some.injEq] at h
    subst h
    exact ⟨fun _ => rfl, fun e0 h0 => by simp [List.find?] at h0⟩
  | cons e t ih =>
    intro l2 h
    unfold mapOpt at h
    cases hre : remapIn kf e.func with
    | none => rw [hre] at h; simp at h
    | some j =>
      rw [hre] at h
      cases hmt : mapOpt (fun e => (remapIn kf e.func).map fun j => ExportEntry.mk e.name j)
          t with
      | none => rw [hmt] at h; simp at h
      | some t2 =>
        rw [hmt] at h
        simp at h
        subst h
        by_cases hp : e.name = nm
        · constructor
          · intro h0
            rw [List.find?_cons_of_pos _ (by simpa using hp)] at h0
            simp at h0
          · intro e0 h0
            rw [List.find?_cons_of_pos _ (by simpa using hp)] at h0
            simp only [Option.some.injEq] at h0
            subst h0
            refine ⟨j, hre, ?_⟩
            rw [List.find?_cons_of_pos _ (by simpa using hp)]
        · have hhead : List.find? (fun e : ExportEntry => decide (e.name = nm))
              (ExportEntry.mk e.name j :: t2) =
              List.find? (fun e : ExportEntry => decide (e.name = nm)) t2 := by
            rw [List.find?_cons]
            simp [hp]
          constructor
          · intro h0
            rw [List.find?_cons_of_neg _ (by simpa using hp)] at h0
            rw [hhead]
            exact (ih hmt).1 h0
          · intro e0 h0
            rw [List.find?_cons_of_neg _ (by simpa using hp)] at h0
            obtain ⟨j0, hj0, hfind⟩ := (ih hmt).2 e0 h0
            refine ⟨j0, hj0, ?_⟩
            rw [hhead]
            exact hfind

/-! ## Structure of the optimizer output (towards idempotence) -/

/-- The visited set of a pass over m seeded by sd. -/
def visOf (m : OModule) (sd : List Nat) : Finset Nat := visitedF m.funcs sd.toFinset

/-- The kept function indices of a pass over m seeded by sd. -/
def kfOf (m : OModule) (sd : List Nat) : List Nat := keptOfKind m (visOf m sd) .func

/-- The per-function rewrite step of the optimizer. -/
def funcStep (m : OModule) (sd : List Nat) (i : Nat) : Option Func :=
  m.funcs[i]?.bind (remapFunc m (visOf m sd))

/-- The per-export rewrite step of the optimizer. -/
def expStep (m : OModule) (sd : List Nat) (e : ExportEntry) : Option ExportEntry :=
  (remapIn (kfOf m sd) e.func).map fun j => ExportEntry.mk e.name j

/-- The module the optimizer assembles on success. -/
def mkRewrite (m : OModule) (sd : List Nat) (funcs2 : List Func)
    (exports2 : List ExportEntry) : OModule :=
  { funcs := funcs2
    nGlobals := (keptOfKind m (visOf m sd) .glob).length
    nTypes := (keptOfKind m (visOf m sd) .typ).length
    nTables := (keptOfKind m (visOf m sd) .table).length
    nMems := (keptOfKind m (visOf m sd) .mem).length
    exports := exports2 }

theorem refsOf_eq {funcs : List Func} {i : Nat} {f0 : Func} (h : funcs[i]? = some f0) :
    refsOf funcs i = f0.refs := by
  unfold refsOf
  rw [h]
  rfl

theorem mem_funcRefsOf {funcs : List Func} {i j : Nat} :
    j ∈ funcRefsOf funcs i ↔ (⟨.func, j⟩ : Sym) ∈ refsOf funcs i := by
  unfold funcRefsOf
  rw [List.mem_filterMap]
  constructor
  · rintro ⟨⟨k, idx⟩, hs, hg⟩
    cases k with
    | func =>
      simp only [Option.some.injEq] at hg
      subst hg
      exact hs
    | glob => simp at hg
    | typ => simp at hg
    | table => simp at hg
    | mem => simp at hg
  · intro hm
    exact ⟨⟨.func, j⟩, hm, rfl⟩

theorem seed_mem_kf {m : OModule} {eps : List String} {sd : List Nat}
    {exports2 : List ExportEntry}
    (hsd : resolveSeeds m eps = some sd)
    (he : mapOpt (expStep m sd) (m.exports.filter fun e => decide (e.name ∈ eps)) =
      some exports2) :
    ∀ i ∈ sd, i ∈ kfOf m sd := by
  intro i hi
  obtain ⟨nm, hnm, hre⟩ := mapOpt_mem_rev hsd hi
  unfold resolveEntrypoint at hre
  cases hfind : m.exports.find? fun e => decide (e.name = nm) with
  | none => rw [hfind] at hre; simp at hre
  | some e0 =>
    rw [hfind] at hre
    simp only [Option.map_some'] at hre
    injection hre with hre
    have he0m : e0 ∈ m.exports := List.mem_of_find?_eq_some hfind
    have he0p : e0.name = nm := by simpa using List.find?_some hfind
    have he0f : e0 ∈ m.exports.filter fun e => decide (e.name ∈ eps) := by
      rw [List.mem_filter]
      exact ⟨he0m, by simp [he0p, hnm]⟩
    obtain ⟨b, hb, _⟩ := mapOpt_mem he he0f
    unfold expStep at hb
    cases hrm : remapIn (kfOf m sd) e0.func with
    | none => rw [hrm] at hb; simp at hb
    | some j =>
      rw [← hre]
      exact remapIn_isSome_iff.mp (by rw [hrm]; rfl)

theorem reach_mem_kf {m : OModule} {eps : List String} {sd : List Nat}
    {funcs2 : List Func} {exports2 : List ExportEntry}
    (hsd : resolveSeeds m eps = some sd)
    (hf : mapOpt (funcStep m sd) (kfOf m sd) = some funcs2)
    (he : mapOpt (expStep m sd) (m.exports.filter fun e => decide (e.name ∈ eps)) =
      some exports2) :
    ∀ i, Reach m.funcs sd i → i ∈ kfOf m sd := by
  intro i hr
  induction hr with
  | seed hm => exact seed_mem_kf hsd he _ hm
  | @step i0 j hr0 href ih =>
    obtain ⟨f2, hf2, _⟩ := mapOpt_mem hf ih
    unfold funcStep at hf2
    cases hm0 : m.funcs[i0]? with
    | none => rw [hm0] at hf2; simp at hf2
    | some f0 =>
      rw [hm0] at hf2
      simp only [Option.some_bind] at hf2
      unfold remapFunc at hf2
      cases hmr : mapOpt (remapSym m (visOf m sd)) f0.refs with
      | none => rw [hmr] at hf2; simp at hf2
      | some refs2 =>
        have hsref : (⟨.func, j⟩ : Sym) ∈ f0.refs := by
          rw [← refsOf_eq hm0]
          exact mem_funcRefsOf.mp href
        obtain ⟨s2, hs2, _⟩ := mapOpt_mem hmr hsref
        unfold remapSym at hs2
        cases hr2 : remapIn (keptOfKind m (visOf m sd) .func) j with
        | none =>
          rw [show remapIn (keptOfKind m (visOf m sd) (Sym.mk .func j).kind)
            (Sym.mk .func j).idx = none from hr2] at hs2
          simp at hs2
        | some j2 =>
          exact remapIn_isSome_iff.mp (by rw [show kfOf m sd =
            keptOfKind m (visOf m sd) .func from rfl, hr2]; rfl)

theorem funcStep_spec {m : OModule} {sd : List Nat} {i : Nat} {f2 : Func}
    (h : funcStep m sd i = some f2) :
    ∃ f0, m.funcs[i]? = some f0 ∧
      mapOpt (remapSym m (visOf m sd)) f0.refs = some f2.refs := by
  unfold funcStep at h
  cases hm0 : m.funcs[i]? with
  | none => rw [hm0] at h; simp at h
  | some f0 =>
    rw [hm0] at h
    simp only [Option.some_bind] at h
    unfold remapFunc at h
    cases hmr : mapOpt (remapSym m (visOf m sd)) f0.refs with
    | none => rw [hmr] at h; simp at h
    | some refs2 =>
      rw [hmr] at h
      simp only [Option.map_some'] at h
      injection h with h
      exact ⟨f0, rfl, by rw [hmr, ← h]⟩

theorem remapSym_spec {m : OModule} {vis : Finset Nat} {s s2 : Sym}
    (h : remapSym m vis s = some s2) :
    s2.kind = s.kind ∧ remapIn (keptOfKind m vis s.kind) s.idx = some s2.idx := by
  unfold remapSym at h
  cases hr : remapIn (keptOfKind m vis s.kind) s.idx with
  | none => rw [hr] at h; simp at h
  | some j =>
    rw [hr] at h
    simp only [Option.map_some', Option.some.injEq] at h
    subst h
    exact ⟨rfl, rfl⟩

theorem funcs2_refs_lt {m : OModule} {sd : List Nat} {funcs2 : List Func}
    (hf : mapOpt (funcStep m sd) (kfOf m sd) = some funcs2) :
    ∀ f2 ∈ funcs2, ∀ s2 ∈ f2.refs,
      s2.idx < (keptOfKind m (visOf m sd) s2.kind).length := by
  intro f2 hf2 s2 hs2
  obtain ⟨i, _, hstep⟩ := mapOpt_mem_rev hf hf2
  obtain ⟨f0, _, hmr⟩ := funcStep_spec hstep
  obtain ⟨s, _, hsym⟩ := mapOpt_mem_rev hmr hs2
  obtain ⟨hkind, hri⟩ := remapSym_spec hsym
  rw [hkind]
  exact remapIn_lt hri

theorem exports2_spec {m : OModule} {eps : List String} {sd : List Nat}
    {exports2 : List ExportEntry}
    (he : mapOpt (expStep m sd) (m.exports.filter fun e => decide (e.name ∈ eps)) =
      some exports2) :
    ∀ e2 ∈ exports2, decide (e2.name ∈ eps) = true ∧ e2.func < (kfOf m sd).length := by
  intro e2 h2
  obtain ⟨e, hef, hstep⟩ := mapOpt_mem_rev he h2
  have hmem := List.mem_filter.mp hef
  unfold expStep at hstep
  cases hr : remapIn (kfOf m sd) e.func with
  | none => rw [hr] at hstep; simp at hstep
  | some j =>
    rw [hr] at hstep
    simp only [Option.map_some', Option.some.injEq] at hstep
    subst hstep
    exact ⟨by simpa using hmem.2, remapIn_lt hr⟩

theorem resolveEntrypoint_m2 {m : OModule} {eps : List String} {sd : List Nat}
    {exports2 : List ExportEntry}
    (he : mapOpt (expStep m sd) (m.exports.filter fun e => decide (e.name ∈ eps)) =
      some exports2)
    {nm : String} (hnm : nm ∈ eps) {i : Nat}
    (hre : resolveEntrypoint m nm = some i) :
    ∃ j, remapIn (kfOf m sd) i = some j ∧
      (exports2.find? fun e => decide (e.name = nm)).map ExportEntry.func = some j := by
  have he2 : mapOpt (fun e => (remapIn (kfOf m sd) e.func).map fun j =>
      ExportEntry.mk e.name j) (m.exports.filter fun e => decide (e.name ∈ eps)) =
      some exports2 := he
  unfold resolveEntrypoint at hre
  cases hfind : m.exports.find? fun e => decide (e.name = nm) with
  | none => rw [hfind] at hre; simp at hre
  | some e0 =>
    rw [hfind] at hre
    simp only [Option.map_some'] at hre
    injection hre with hre
    have hff : ((m.exports.filter fun e => decide (e.name ∈ eps)).find?
        fun e => decide (e.name = nm)) = some e0 := by
      rw [find?_filter_of_imp]
      · exact hfind
      · intro x hx
        simp only [decide_eq_true_eq] at hx ⊢
        rw [hx]
        exact hnm
    obtain ⟨j, hj, hfind2⟩ := (find?_mapOpt_name nm he2).2 e0 hff
    rw [hre] at hj
    refine ⟨j, hj, ?_⟩
    rw [hfind2]
    rfl

theorem resolveSeeds_m2 {m m2 : OModule} {eps : List String} {sd sd2 : List Nat}
    {exports2 : List ExportEntry}
    (hsd : resolveSeeds m eps = some sd)
    (he : mapOpt (expStep m sd) (m.exports.filter fun e => decide (e.name ∈ eps)) =
      some exports2)
    (hsd2 : mapOpt (remapIn (kfOf m sd)) sd = some sd2)
    (hm2e : m2.exports = exports2) :
    resolveSeeds m2 eps = some sd2 := by
  have hcong : ∀ nm ∈ eps, resolveEntrypoint m2 nm =
      (resolveEntrypoint m nm).bind (remapIn (kfOf m sd)) := by
    intro nm hnm
    cases hre : resolveEntrypoint m nm with
    | none =>
      exfalso
      obtain ⟨b, hb, _⟩ := mapOpt_mem hsd hnm
      rw [hre] at hb
      simp at hb
    | some i =>
      obtain ⟨j, hj, hfind2⟩ := resolveEntrypoint_m2 he hnm hre
      show (m2.exports.find? fun e => decide (e.name = nm)).map ExportEntry.func = _
      rw [hm2e, hfind2]
      simp only [Option.some_bind]
      rw [hj]
  unfold resolveSeeds
  rw [mapOpt_congr fun nm hnm => hcong nm hnm]
  exact mapOpt_bind_comp hsd hsd2

theorem lt_length_of_mem_refsOf {funcs : List Func} {i : Nat} {s : Sym}
    (h : s ∈ refsOf funcs i) : i < funcs.length := by
  by_contra hge
  unfold refsOf at h
  rw [List.getElem?_eq_none (le_of_not_lt hge)] at h
  simp at h

theorem mem_kf_of_vis {m : OModule} {sd : List Nat} {i : Nat}
    (hv : i ∈ visOf m sd) (hlt : i < m.funcs.length) : i ∈ kfOf m sd := by
  unfold kfOf
  simp only [keptOfKind]
  rw [List.mem_filter, List.mem_range, decide_eq_true_eq]
  exact ⟨hlt, hv⟩

theorem funcs2_get {m : OModule} {sd : List Nat} {funcs2 : List Func}
    (hf : mapOpt (funcStep m sd) (kfOf m sd) = some funcs2)
    {j : Nat} (hj : j < funcs2.length) :
    ∃ (hjk : j < (kfOf m sd).length) (f0 : Func),
      m.funcs[(kfOf m sd).get ⟨j, hjk⟩]? = some f0 ∧
      mapOpt (remapSym m (visOf m sd)) f0.refs = some (funcs2.get ⟨j, hj⟩).refs := by
  have hlen : funcs2.length = (kfOf m sd).length := mapOpt_length hf
  have hjk : j < (kfOf m sd).length := hlen ▸ hj
  obtain ⟨f0, hm0, hmr⟩ := funcStep_spec (mapOpt_get hf j hjk hj)
  exact ⟨hjk, f0, hm0, hmr⟩

theorem reach_transfer_fwd {m m2 : OModule} {eps : List String} {sd sd2 : List Nat}
    {funcs2 : List Func} {exports2 : List ExportEntry}
    (hsd : resolveSeeds m eps = some sd)
    (hf : mapOpt (funcStep m sd) (kfOf m sd) = some funcs2)
    (he : mapOpt (expStep m sd) (m.exports.filter fun e => decide (e.name ∈ eps)) =
      some exports2)
    (hsd2 : mapOpt (remapIn (kfOf m sd)) sd = some sd2)
    (hm2f : m2.funcs = funcs2) :
    ∀ i, Reach m.funcs sd i →
      ∀ j, remapIn (kfOf m sd) i = some j → Reach m2.funcs sd2 j := by
  intro i hr
  induction hr with
  | @seed i hm =>
    intro j hj
    obtain ⟨b, hb, hbm⟩ := mapOpt_mem hsd2 hm
    rw [hj] at hb
    injection hb with hb
    subst hb
    exact Reach.seed hbm
  | @step i0 i hr0 href ih =>
    intro j hj
    have hi0k : i0 ∈ kfOf m sd := reach_mem_kf hsd hf he i0 hr0
    obtain ⟨j0, hj0⟩ := Option.isSome_iff_exists.mp (remapIn_isSome_iff.mpr hi0k)
    have hrj0 : Reach m2.funcs sd2 j0 := ih j0 hj0
    have hj0lt : j0 < (kfOf m sd).length := remapIn_lt hj0
    have hj0lt2 : j0 < funcs2.length := by rw [mapOpt_length hf]; exact hj0lt
    obtain ⟨hjk, f0, hm0, hmr⟩ := funcs2_get hf hj0lt2
    have hget : (kfOf m sd).get ⟨j0, hjk⟩ = i0 := remapIn_get hj0
    rw [hget] at hm0
    have hsref : (⟨.func, i⟩ : Sym) ∈ f0.refs := by
      rw [← refsOf_eq hm0]
      exact mem_funcRefsOf.mp href
    obtain ⟨s2, hs2, hs2m⟩ := mapOpt_mem hmr hsref
    have hs2v : s2 = ⟨.func, j⟩ := by
      unfold remapSym at hs2
      rw [show keptOfKind m (visOf m sd) (Sym.mk .func i).kind = kfOf m sd from rfl,
        show (Sym.mk SymKind.func i).idx = i from rfl, hj] at hs2
      simp only [Option.map_some', Option.some.injEq] at hs2
      exact hs2.symm
    subst hs2v
    have hm2j0 : m2.funcs[j0]? = some (funcs2.get ⟨j0, hj0lt2⟩) := by
      rw [hm2f]
      rw [List.getElem?_eq_getElem hj0lt2]
      rfl
    have hjref : j ∈ funcRefsOf m2.funcs j0 := by
      rw [mem_funcRefsOf, refsOf_eq hm2j0]
      exact hs2m
    exact Reach.step hrj0 hjref

theorem reach_transfer_bwd {m m2 : OModule} {sd sd2 : List Nat}
    {funcs2 : List Func}
    (hf : mapOpt (funcStep m sd) (kfOf m sd) = some funcs2)
    (hsd2 : mapOpt (remapIn (kfOf m sd)) sd = some sd2)
    (hm2f : m2.funcs = funcs2) :
    ∀ j, Reach m2.funcs sd2 j → j < funcs2.length := by
  intro j hr
  induction hr with
  | @seed j hm =>
    obtain ⟨i, _, hri⟩ := mapOpt_mem_rev hsd2 hm
    rw [mapOpt_length hf]
    exact remapIn_lt hri
  | @step j0 j hr0 href ih =>
    have hs : (⟨.func, j⟩ : Sym) ∈ refsOf m2.funcs j0 := mem_funcRefsOf.mp href
    have hj0 : j0 < m2.funcs.length := by rw [hm2f]; exact ih
    have hm2j0 : m2.funcs[j0]? = some (m2.funcs.get ⟨j0, hj0⟩) := by
      rw [List.getElem?_eq_getElem hj0]
      rfl
    have hmem : m2.funcs.get ⟨j0, hj0⟩ ∈ funcs2 := by
      rw [← hm2f]
      exact List.get_mem _ _ _
    rw [refsOf_eq hm2j0] at hs
    have hb := funcs2_refs_lt hf _ hmem _ hs
    rw [mapOpt_length hf]
    exact hb

theorem vis2_eq_range {m m2 : OModule} {eps : List String} {sd sd2 : List Nat}
    {funcs2 : List Func} {exports2 : List ExportEntry}
    (hsd : resolveSeeds m eps = some sd)
    (hf : mapOpt (funcStep m sd) (kfOf m sd) = some funcs2)
    (he : mapOpt (expStep m sd) (m.exports.filter fun e => decide (e.name ∈ eps)) =
      some exports2)
    (hsd2 : mapOpt (remapIn (kfOf m sd)) sd = some sd2)
    (hm2f : m2.funcs = funcs2) :
    visOf m2 sd2 = Finset.range m2.funcs.length := by
  apply Finset.ext
  intro j
  rw [Finset.mem_range]
  show j ∈ visitedF m2.funcs sd2.toFinset ↔ _
  rw [mem_visitedF_iff]
  constructor
  · intro hr
    rw [hm2f]
    exact reach_transfer_bwd hf hsd2 hm2f j hr
  · intro hj
    rw [hm2f] at hj
    have hjk : j < (kfOf m sd).length := by rw [← mapOpt_length hf]; exact hj
    have him : (kfOf m sd).get ⟨j, hjk⟩ ∈ kfOf m sd := List.get_mem _ _ _
    have hreach : Reach m.funcs sd ((kfOf m sd).get ⟨j, hjk⟩) :=
      ((mem_keptFuncs_iff m sd _).mp him).2
    have hri : remapIn (kfOf m sd) ((kfOf m sd).get ⟨j, hjk⟩) = some j :=
      remapIn_of_get (keptOfKind_nodup m (visOf m sd) .func) j hjk
    exact reach_transfer_fwd hsd hf he hsd2 hm2f _ hreach j hri

theorem kf2_eq_range {m2 : OModule} {sd2 : List Nat}
    (hvis2 : visOf m2 sd2 = Finset.range m2.funcs.length) :
    kfOf m2 sd2 = List.range m2.funcs.length := by
  unfold kfOf
  simp only [keptOfKind]
  rw [hvis2]
  apply List.filter_eq_self.mpr
  intro a ha
  rw [decide_eq_true_eq, Finset.mem_range]
  exact List.mem_range.mp ha

theorem symUsed_of_mem_keptOther {m : OModule} {vis : Finset Nat} {k : SymKind}
    (hk : k ≠ .func) {i : Nat} (h : i ∈ keptOfKind m vis k) :
    symUsed m vis ⟨k, i⟩ = true := by
  cases k with
  | func => exact absurd rfl hk
  | glob =>
    simp only [keptOfKind] at h
    exact (List.mem_filter.mp h).2
  | typ =>
    simp only [keptOfKind] at h
    exact (List.mem_filter.mp h).2
  | table =>
    simp only [keptOfKind] at h
    exact (List.mem_filter.mp h).2
  | mem =>
    simp only [keptOfKind] at h
    exact (List.mem_filter.mp h).2

theorem symUsed2_true {m m2 : OModule} {sd sd2 : List Nat} {funcs2 : List Func}
    (hf : mapOpt (funcStep m sd) (kfOf m sd) = some funcs2)
    (hm2f : m2.funcs = funcs2)
    (hvis2 : visOf m2 sd2 = Finset.range m2.funcs.length)
    (k : SymKind) (hk : k ≠ .func) (i : Nat)
    (hi : i < (keptOfKind m (visOf m sd) k).length) :
    symUsed m2 (visOf m2 sd2) ⟨k, i⟩ = true := by
  have hmem : (keptOfKind m (visOf m sd) k).get ⟨i, hi⟩ ∈ keptOfKind m (visOf m sd) k :=
    List.get_mem _ _ _
  have hused1 : symUsed m (visOf m sd)
      ⟨k, (keptOfKind m (visOf m sd) k).get ⟨i, hi⟩⟩ = true :=
    symUsed_of_mem_keptOther hk hmem
  obtain ⟨i0, hi0v, hi0r⟩ := of_decide_eq_true hused1
  have hi0lt : i0 < m.funcs.length := lt_length_of_mem_refsOf hi0r
  have hi0k : i0 ∈ kfOf m sd := mem_kf_of_vis hi0v hi0lt
  obtain ⟨j0, hj0⟩ := Option.isSome_iff_exists.mp (remapIn_isSome_iff.mpr hi0k)
  have hj0lt : j0 < (kfOf m sd).length := remapIn_lt hj0
  have hj0lt2 : j0 < funcs2.length := by rw [mapOpt_length hf]; exact hj0lt
  obtain ⟨hjk, f0, hm0, hmr⟩ := funcs2_get hf hj0lt2
  have hget : (kfOf m sd).get ⟨j0, hjk⟩ = i0 := remapIn_get hj0
  rw [hget] at hm0
  have hsref : (⟨k, (keptOfKind m (visOf m sd) k).get ⟨i, hi⟩⟩ : Sym) ∈ f0.refs := by
    rw [← refsOf_eq hm0]
    exact hi0r
  obtain ⟨s2, hs2, hs2m⟩ := mapOpt_mem hmr hsref
  have hri : remapIn (keptOfKind m (visOf m sd) k)
      ((keptOfKind m (visOf m sd) k).get ⟨i, hi⟩) = some i :=
    remapIn_of_get (keptOfKind_nodup m (visOf m sd) k) i hi
  have hs2v : s2 = ⟨k, i⟩ := by
    unfold remapSym at hs2
    rw [show (Sym.mk k ((keptOfKind m (visOf m sd) k).get ⟨i, hi⟩)).kind = k from rfl,
      show (Sym.mk k ((keptOfKind m (visOf m sd) k).get ⟨i, hi⟩)).idx =
        (keptOfKind m (visOf m sd) k).get ⟨i, hi⟩ from rfl, hri] at hs2
    simp only [Option.map_some', Option.some.injEq] at hs2
    exact hs2.symm
  subst hs2v
  unfold symUsed
  apply decide_eq_true
  refine ⟨j0, ?_, ?_⟩
  · rw [hvis2, Finset.mem_range, hm2f]
    exact hj0lt2
  · rw [refsOf_eq (show m2.funcs[j0]? = some (funcs2.get ⟨j0, hj0lt2⟩) by
      rw [hm2f, List.getElem?_eq_getElem hj0lt2]; rfl)]
    exact hs2m

theorem keptOther2_eq_range {m m2 : OModule} {sd sd2 : List Nat} {funcs2 : List Func}
    (hf : mapOpt (funcStep m sd) (kfOf m sd) = some funcs2)
    (hm2f : m2.funcs = funcs2)
    (hvis2 : visOf m2 sd2 = Finset.range m2.funcs.length)
    (k : SymKind) (hk : k ≠ .func)
    (hcntk : countOfKind m2 k = (keptOfKind m (visOf m sd) k).length) :
    keptOfKind m2 (visOf m2 sd2) k = List.range (countOfKind m2 k) := by
  have hall : ∀ i ∈ List.range (countOfKind m2 k),
      symUsed m2 (visOf m2 sd2) ⟨k, i⟩ = true := by
    intro i hi
    exact symUsed2_true hf hm2f hvis2 k hk i (hcntk ▸ List.mem_range.mp hi)
  cases k with
  | func => exact absurd rfl hk
  | glob =>
    simp only [keptOfKind]
    exact List.filter_eq_self.mpr hall
  | typ =>
    simp only [keptOfKind]
    exact List.filter_eq_self.mpr hall
  | table =>
    simp only [keptOfKind]
    exact List.filter_eq_self.mpr hall
  | mem =>
    simp only [keptOfKind]
    exact List.filter_eq_self.mpr hall

theorem keptOfKind2_eq_range {m m2 : OModule} {sd sd2 : List Nat} {funcs2 : List Func}
    (hf : mapOpt (funcStep m sd) (kfOf m sd) = some funcs2)
    (hm2f : m2.funcs = funcs2)
    (hvis2 : visOf m2 sd2 = Finset.range m2.funcs.length)
    (hcnt : ∀ k, k ≠ SymKind.func →
      countOfKind m2 k = (keptOfKind m (visOf m sd) k).length)
    (k : SymKind) :
    keptOfKind m2 (visOf m2 sd2) k = List.range (countOfKind m2 k) := by
  by_cases hk : k = SymKind.func
  · subst hk
    exact kf2_eq_range hvis2
  · exact keptOther2_eq_range hf hm2f hvis2 k hk (hcnt k hk)

theorem remapSym2_id {m m2 : OModule} {sd sd2 : List Nat} {funcs2 : List Func}
    (hf : mapOpt (funcStep m sd) (kfOf m sd) = some funcs2)
    (hm2f : m2.funcs = funcs2)
    (hvis2 : visOf m2 sd2 = Finset.range m2.funcs.length)
    (hcnt : ∀ k, k ≠ SymKind.func →
      countOfKind m2 k = (keptOfKind m (visOf m sd) k).length) :
    ∀ f2 ∈ funcs2, ∀ s2 ∈ f2.refs, remapSym m2 (visOf m2 sd2) s2 = some s2 := by
  intro f2 hf2 s2 hs2
  have hlt1 : s2.idx < (keptOfKind m (visOf m sd) s2.kind).length :=
    funcs2_refs_lt hf f2 hf2 s2 hs2
  have hlt : s2.idx < countOfKind m2 s2.kind := by
    by_cases hk : s2.kind = SymKind.func
    · rw [hk]
      show s2.idx < m2.funcs.length
      rw [hm2f, mapOpt_length hf]
      rw [hk] at hlt1
      exact hlt1
    · rw [hcnt s2.kind hk]
      exact hlt1
  unfold remapSym
  rw [keptOfKind2_eq_range hf hm2f hvis2 hcnt s2.kind, remapIn_range hlt]
  rfl

theorem funcs_mapOpt2_id {m m2 : OModule} {sd sd2 : List Nat} {funcs2 : List Func}
    (hf : mapOpt (funcStep m sd) (kfOf m sd) = some funcs2)
    (hm2f : m2.funcs = funcs2)
    (hvis2 : visOf m2 sd2 = Finset.range m2.funcs.length)
    (hcnt : ∀ k, k ≠ SymKind.func →
      countOfKind m2 k = (keptOfKind m (visOf m sd) k).length) :
    mapOpt (funcStep m2 sd2) (kfOf m2 sd2) = some m2.funcs := by
  rw [kf2_eq_range hvis2]
  apply mapOpt_some_of_pointwise
  · simp
  · intro j hj hj2
    have hjlen : j < m2.funcs.length := by simpa using hj
    rw [List.get_range]
    unfold funcStep
    rw [List.getElem?_eq_getElem hjlen]
    simp only [Option.some_bind]
    unfold remapFunc
    have hmem : m2.funcs[j] ∈ funcs2 := by
      rw [← hm2f]
      exact List.get_mem _ _ _
    have hmid := mapOpt_id_of_forall fun s2 hs2 =>
      remapSym2_id hf hm2f hvis2 hcnt (m2.funcs[j]) hmem s2 hs2
    rw [hmid]
    rfl

theorem exports_mapOpt2_id {m m2 : OModule} {eps : List String} {sd sd2 : List Nat}
    {funcs2 : List Func} {exports2 : List ExportEntry}
    (hf : mapOpt (funcStep m sd) (kfOf m sd) = some funcs2)
    (he : mapOpt (expStep m sd) (m.exports.filter fun e => decide (e.name ∈ eps)) =
      some exports2)
    (hm2f : m2.funcs = funcs2) (hm2e : m2.exports = exports2)
    (hvis2 : visOf m2 sd2 = Finset.range m2.funcs.length) :
    mapOpt (expStep m2 sd2) (m2.exports.filter fun e => decide (e.name ∈ eps)) =
      some m2.exports := by
  have hfilter : m2.exports.filter (fun e => decide (e.name ∈ eps)) = m2.exports := by
    apply List.filter_eq_self.mpr
    intro e2 h2
    exact (exports2_spec he e2 (by rw [← hm2e]; exact h2)).1
  rw [hfilter]
  apply mapOpt_id_of_forall
  intro e2 h2
  have hlt : e2.func < (kfOf m sd).length :=
    (exports2_spec he e2 (by rw [← hm2e]; exact h2)).2
  have hlt2 : e2.func < m2.funcs.length := by
    rw [hm2f, mapOpt_length hf]
    exact hlt
  unfold expStep
  rw [kf2_eq_range hvis2, remapIn_range hlt2]
  rfl

/-! ## C7: the optimizer is idempotent -/

/-- C7: running the reachability optimizer a second time on its own
output, with the same entrypoint set, produces the identical module: the
transform is a fixed point on its own output. -/
theorem optimize_idempotent (m : OModule) (eps : List String) (m2 : OModule)
    (hok : optimize m eps = .ok m2) : optimize m2 eps = .ok m2 := by
  cases hsd : resolveSeeds m eps with
  | none =>
    unfold optimize at hok
    rw [hsd] at hok
    simp at hok
  | some sd =>
    simp only [optimize, hsd] at hok
    split at hok
    next funcs2 exports2 hf he =>
      injection hok with hok2
      have hm2f : m2.funcs = funcs2 := by rw [← hok2]
      have hm2e : m2.exports = exports2 := by rw [← hok2]
      have hcnt : ∀ k, k ≠ SymKind.func →
          countOfKind m2 k = (keptOfKind m (visOf m sd) k).length := by
        intro k hk
        rw [← hok2]
        cases k with
        | func => exact absurd rfl hk
        | glob => rfl
        | typ => rfl
        | table => rfl
        | mem => rfl
      have hf2 : mapOpt (funcStep m sd) (kfOf m sd) = some funcs2 := hf
      have he2 : mapOpt (expStep m sd)
          (m.exports.filter fun e => decide (e.name ∈ eps)) = some exports2 := he
      have hsdk : ∀ i ∈ sd, (remapIn (kfOf m sd) i).isSome = true := fun i hi =>
        remapIn_isSome_iff.mpr (seed_mem_kf hsd he2 i hi)
      obtain ⟨sd2, hsd2⟩ := mapOpt_some_of_forall hsdk
      have hrs2 : resolveSeeds m2 eps = some sd2 := resolveSeeds_m2 hsd he2 hsd2 hm2e
      have hvis2 : visOf m2 sd2 = Finset.range m2.funcs.length :=
        vis2_eq_range hsd hf2 he2 hsd2 hm2f
      have hfid : mapOpt (fun i => m2.funcs[i]?.bind
            (remapFunc m2 (visitedF m2.funcs sd2.toFinset)))
          (keptOfKind m2 (visitedF m2.funcs sd2.toFinset) .func) = some m2.funcs :=
        funcs_mapOpt2_id hf2 hm2f hvis2 hcnt
      have heid : mapOpt (fun e => (remapIn
            (keptOfKind m2 (visitedF m2.funcs sd2.toFinset) .func) e.func).map
            fun j => ExportEntry.mk e.name j)
          (m2.exports.filter fun e => decide (e.name ∈ eps)) = some m2.exports :=
        exports_mapOpt2_id hf2 he2 hm2f hm2e hvis2
      have hkg : (keptOfKind m2 (visitedF m2.funcs sd2.toFinset) .glob).length =
          m2.nGlobals := by
        rw [show keptOfKind m2 (visitedF m2.funcs sd2.toFinset) SymKind.glob =
          keptOfKind m2 (visOf m2 sd2) SymKind.glob from rfl,
          keptOfKind2_eq_range hf2 hm2f hvis2 hcnt .glob]
        simp [countOfKind]
      have hkt : (keptOfKind m2 (visitedF m2.funcs sd2.toFinset) .typ).length =
          m2.nTypes := by
        rw [show keptOfKind m2 (visitedF m2.funcs sd2.toFinset) SymKind.typ =
          keptOfKind m2 (visOf m2 sd2) SymKind.typ from rfl,
          keptOfKind2_eq_range hf2 hm2f hvis2 hcnt .typ]
        simp [countOfKind]
      have hktab : (keptOfKind m2 (visitedF m2.funcs sd2.toFinset) .table).length =
          m2.nTables := by
        rw [show keptOfKind m2 (visitedF m2.funcs sd2.toFinset) SymKind.table =
          keptOfKind m2 (visOf m2 sd2) SymKind.table from rfl,
          keptOfKind2_eq_range hf2 hm2f hvis2 hcnt .table]
        simp [countOfKind]
      have hkm : (keptOfKind m2 (visitedF m2.funcs sd2.toFinset) .mem).length =
          m2.nMems := by
        rw [show keptOfKind m2 (visitedF m2.funcs sd2.toFinset) SymKind.mem =
          keptOfKind m2 (visOf m2 sd2) SymKind.mem from rfl,
          keptOfKind2_eq_range hf2 hm2f hvis2 hcnt .mem]
        simp [countOfKind]
      simp only [optimize, hrs2, hfid, heid, hkg, hkt, hktab, hkm]
    next =>
      simp at hok

/-- Witness for C7 at the concrete module mW. -/
theorem optimize_idempotent_witness :
    optimize mW entrypoints = .ok m2W ∧ optimize m2W entrypoints = .ok m2W :=
  ⟨by decide, optimize_idempotent mW entrypoints m2W (by decide)⟩

end Liquid
